import Mathlib

/-!
# go-multiaddr: address composition and the filter engine

A shallow embedding of `go-multiaddr/multiaddr.go` and `go-multiaddr/filter.go`.

* Byte buffers are `List Nat`.
* A `Multiaddr` interface value is `Option multiaddr`; `none` is Go's `nil`.
* The reader/writer lock of `Filters` is left out of the state, every method being one
  atomic step on the rule list; what each method does to the lock is recorded apart, as
  a run of ghost events (`Event`, `Mu`).
* The protocol table, the varint codec, `ForEach`, `Split` and `Join` are declared in
  other files of the package; they are modelled from the specification and marked as
  such.
* `net.IPNet.String` and `net.IPNet.Contains` belong to Go's standard library and are
  parameters (`NetLib`): every general theorem holds whatever they compute.
* `Component.Value` is a field of `Env`; the parser `stringToBytes` and `json.Unmarshal`
  are parameters (`Parsers`); `bytes.Compare` and `slices.SortFunc` are modelled after
  their documentation.
* A method that can panic returns an `Outcome`.
-/

namespace Multiaddr

/-! ## Codec (modelled from the specification) -/

/-- Modelled from the spec: the encoding rule of a protocol, either a fixed bit width
(possibly zero) or a value preceded by its unsigned-varint byte length. The declaration of
`Protocol` is not among the sources. -/
inductive Size where
  | fixed (bits : Nat)
  | varLen
  deriving DecidableEq, Repr

/-- Modelled from the spec: a protocol of the registry, reduced to its numeric code and its
encoding rule. Code `0` is reserved for "not found". -/
structure Protocol where
  Code : Nat
  Size : Size
  deriving DecidableEq, Repr

/-- Modelled from the spec: the kinds of decode error (section 7). -/
inductive DecodeError where
  | truncatedVarint
  | overlongVarint
  | nonMinimalVarint
  | unknownProtocol
  | truncatedValue
  deriving DecidableEq, Repr

/-- Modelled from the spec: one decoded component, a protocol with its raw value bytes;
`bytes` is the encoding of the component, which is the buffer of the single-component
address that `Split` hands out. The declaration of `Component` is not among the sources. -/
structure Component where
  protocol : Protocol
  rawValue : List Nat
  bytes : List Nat
  deriving DecidableEq, Repr

/-- The zero value `Component{}` that Go passes along with a decode error. -/
def Component.zero : Component :=
  { protocol := { Code := 0, Size := Size.fixed 0 }, rawValue := [], bytes := [] }

/-- What the sources use but do not declare: the protocol table, the method
`Component.Value` (the value of a component rendered as a string by the transcoder of its
protocol), the bound on the width of a varint, and the three protocol codes `AddrBlocked`
switches on. The two inequalities hold in any program that compiles, since Go rejects a
duplicate constant among the cases of a switch. -/
structure Env where
  ProtocolWithCode : Nat → Protocol
  Value : Component → String
  MaxVarintLen : Nat
  P_IP4 : Nat
  P_IP6 : Nat
  P_IP6ZONE : Nat
  zone_ne_ip4 : P_IP6ZONE ≠ P_IP4
  zone_ne_ip6 : P_IP6ZONE ≠ P_IP6

/-- Modelled from the spec: the loop of the unsigned-varint reader (section 4.2). `i` counts
the bytes already consumed and `acc` is the value they carry. Seven payload bits per byte,
least significant group first, the high bit announces a further byte. An encoding longer
than `maxLen` bytes, one that ends before its last byte, and one with a superfluous zero
final byte are rejected. -/
def readUvarint (maxLen : Nat) : Nat → Nat → List Nat → Except DecodeError (Nat × Nat)
  | _, _, [] => .error .truncatedVarint
  | i, acc, x :: rest =>
    if maxLen ≤ i then .error .overlongVarint
    else if x < 128 then
      if x = 0 ∧ 0 < i then .error .nonMinimalVarint
      else .ok (acc + x * 2 ^ (7 * i), i + 1)
    else readUvarint maxLen (i + 1) (acc + (x % 128) * 2 ^ (7 * i)) rest

/-- Modelled from the spec: `read(buffer) -> (value, bytes_consumed)`. -/
def ReadVarintCode (E : Env) (b : List Nat) : Except DecodeError (Nat × Nat) :=
  readUvarint E.MaxVarintLen 0 0 b

/-- Modelled from the spec: `size_for(protocol, remaining_bytes)`, the number of bytes of
the length prefix (zero unless the protocol is variable-sized) and of the value. -/
def sizeForAddr (E : Env) (p : Protocol) (b : List Nat) : Except DecodeError (Nat × Nat) :=
  match p.Size with
  | .fixed bits => .ok (0, bits / 8)
  | .varLen =>
    match ReadVarintCode E b with
    | .error e => .error e
    | .ok (size, n) => .ok (n, size)

/-- Modelled from the spec: decode the component at the head of `b` following the binary
address format (section 6): a varint protocol code, a varint length if the protocol is
variable-sized, the value bytes. Returns the number of bytes consumed and the component. -/
def readComponent (E : Env) (b : List Nat) : Except DecodeError (Nat × Component) :=
  match ReadVarintCode E b with
  | .error e => .error e
  | .ok (code, n) =>
    let p := E.ProtocolWithCode code
    if p.Code = 0 then .error .unknownProtocol
    else
      match sizeForAddr E p (b.drop n) with
      | .error e => .error e
      | .ok (skip, size) =>
        let offset := n + skip
        if (b.drop offset).length < size then .error .truncatedValue
        else .ok (offset + size,
          { protocol := p, rawValue := (b.drop offset).take size, bytes := b.take (offset + size) })

/-! ## `multiaddr.go` -/

/-- The struct `multiaddr`: one byte buffer. -/
structure multiaddr where
  bytes : List Nat
  deriving DecidableEq, Repr

/-- `Equal`: false for a nil argument, otherwise `bytes.Equal` of the two buffers. -/
def multiaddr.Equal (m : multiaddr) (m2 : Option multiaddr) : Bool :=
  match m2 with
  | none => false
  | some o => decide (m.bytes = o.bytes)

/-- `Bytes`. -/
def multiaddr.Bytes (m : multiaddr) : List Nat := m.bytes

/-- Modelled from the spec: the loop of `for_each(a, visit)`. The visitor gets the state
of the variables it captures, the component and the decode error, and answers with the new
state and whether to go on. A decode error is reported once, with the zero component, and
ends the walk. `fuel` bounds the number of components read; `ForEach` passes the length of
the buffer, which is never exhausted because every component takes at least one byte. -/
def ForEachLoop {σ : Type} (E : Env) (cb : σ → Component → Option DecodeError → σ × Bool) :
    Nat → List Nat → σ → σ
  | 0, _, s => s
  | fuel + 1, b, s =>
    if 0 < b.length then
      match readComponent E b with
      | .error e => (cb s Component.zero (some e)).1
      | .ok (n, c) =>
        let r := cb s c none
        if r.2 then ForEachLoop E cb fuel (b.drop n) r.1 else r.1
    else s

/-- Modelled from the spec: `for_each(a, visit)`. -/
def ForEach {σ : Type} (E : Env) (m : multiaddr)
    (cb : σ → Component → Option DecodeError → σ × Bool) (s : σ) : σ :=
  ForEachLoop E cb m.bytes.length m.bytes s

/-- Modelled from the spec: `split(a)`, the ordered sequence of single-component addresses
of `a`. It is a `ForEach` that collects every component and stops at a decode error. -/
def Split (E : Env) (m : multiaddr) : List multiaddr :=
  ForEach E m
    (fun (acc : List multiaddr) c e =>
      match e with
      | some _ => (acc, false)
      | none => (acc ++ [{ bytes := c.bytes }], true))
    []

/-- Modelled from the spec: `join(parts...)`, the address whose buffer is the
concatenation of the buffers of the parts. -/
def Join (ms : List multiaddr) : multiaddr :=
  { bytes := (ms.map multiaddr.bytes).flatten }

/-- `Encapsulate`: the receiver itself for a nil argument, otherwise a new address whose
buffer holds the bytes of the receiver followed by the bytes of the argument. The result is
never nil. -/
def multiaddr.Encapsulate (m : multiaddr) (o : Option multiaddr) : multiaddr :=
  match o with
  | none => m
  | some o => { bytes := m.bytes ++ o.Bytes }

/-- The inner loop of `Decapsulate` for the start index `i`, entered at index `j` of
`rightParts` with the current value of `foundMatch`; the result is `foundMatch` when the
loop is left. -/
def decapMatch (leftParts : List multiaddr) (i : Nat) : Nat → List multiaddr → Bool → Bool
  | _, [], foundMatch => foundMatch
  | j, rightC :: rest, _ =>
    if leftParts.length ≤ i + j then false
    else if !(rightC.Equal leftParts[i + j]?) then false
    else decapMatch leftParts i (j + 1) rest (rightC.Equal leftParts[i + j]?)

/-- The outer loop of `Decapsulate`: the value of `lastIndex` after `i` has run over the
indices of `leftParts`. -/
def decapLastIndex (leftParts rightParts : List multiaddr) : Int :=
  (List.range leftParts.length).foldl
    (fun lastIndex i => if decapMatch leftParts i 0 rightParts false then (i : Int) else lastIndex)
    (-1)

/-- `Decapsulate`. The result is a `Multiaddr` interface value, `none` being nil. -/
def multiaddr.Decapsulate (E : Env) (m : multiaddr) (right : Option multiaddr) :
    Option multiaddr :=
  match right with
  | none => some m
  | some right =>
    let leftParts := Split E m
    let rightParts := Split E right
    let lastIndex := decapLastIndex leftParts rightParts
    if lastIndex = 0 then none
    else if lastIndex < 0 then some { bytes := m.bytes }
    else some (Join (leftParts.take lastIndex.toNat))

/-- The functions that the unmarshalling methods reach and that are declared elsewhere:
`stringToBytes`, the package's parser of the textual form (section 4.3 of the
specification), and `json.Unmarshal` of Go's standard library with a string as target. Byte
slices that hold text are modelled as strings. -/
structure Parsers where
  stringToBytes : String → Except DecodeError (List Nat)
  jsonUnmarshal : String → Except String String

/-- The errors that the unmarshalling methods return. -/
inductive UnmarshalError where
  | decode (e : DecodeError)
  | json (msg : String)
  deriving DecidableEq, Repr

/-- What a call of an unmarshalling method does: it returns, leaving the receiver with the
value `m` and handing back `err`, or it panics. -/
inductive Outcome where
  | returned (m : multiaddr) (err : Option UnmarshalError)
  | panic
  deriving DecidableEq, Repr

/-- `NewMultiaddr`: `(nil, err)` when `stringToBytes` fails, else the address over the bytes
and a nil error. -/
def NewMultiaddr (P : Parsers) (s : String) : Option multiaddr × Option DecodeError :=
  match P.stringToBytes s with
  | .error err => (none, some err)
  | .ok b => (some { bytes := b }, none)

/-- Modelled from the spec: `validate(b)`, the decode error met when the buffer is walked
component by component, or nil. -/
def validateBytes (E : Env) (b : List Nat) : Option DecodeError :=
  (ForEach E { bytes := b }
    (fun (s : Option DecodeError) _ e =>
      match e with
      | some e => (some e, false)
      | none => (s, true))
    none)

/-- `NewMultiaddrBytes`. -/
def NewMultiaddrBytes (E : Env) (b : List Nat) : Option multiaddr × Option DecodeError :=
  match validateBytes E b with
  | some err => (none, some err)
  | none => (some { bytes := b }, none)

/-- The assignment `*m = *(new.(*multiaddr))`: the type assertion panics on a nil interface
value, otherwise the receiver takes the value of `new`. `err` is what is returned after the
assignment. -/
def assignAsserted (new : Option multiaddr) (err : Option UnmarshalError) : Outcome :=
  match new with
  | none => .panic
  | some n => .returned n err

/-- `UnmarshalBinary`. -/
def multiaddr.UnmarshalBinary (E : Env) (m : multiaddr) (data : List Nat) : Outcome :=
  match NewMultiaddrBytes E data with
  | (_, some err) => .returned m (some (.decode err))
  | (new, none) => assignAsserted new none

/-- `UnmarshalText`. -/
def multiaddr.UnmarshalText (P : Parsers) (m : multiaddr) (data : String) : Outcome :=
  match NewMultiaddr P data with
  | (_, some err) => .returned m (some (.decode err))
  | (new, none) => assignAsserted new none

/-- `UnmarshalJSON`: the error of `NewMultiaddr` is looked at only after the assignment. -/
def multiaddr.UnmarshalJSON (P : Parsers) (m : multiaddr) (data : String) : Outcome :=
  match P.jsonUnmarshal data with
  | .error msg => .returned m (some (.json msg))
  | .ok v =>
    match NewMultiaddr P v with
    | (new, err) => assignAsserted new (err.map UnmarshalError.decode)

/-- The error values of `ValueForProtocol`: the package variable `ErrProtocolNotFound`, or a
decode error handed over by `ForEach`. -/
inductive LookupError where
  | ErrProtocolNotFound
  | decode (e : DecodeError)
  deriving DecidableEq, Repr

/-- The visitor that `ValueForProtocol` hands to `ForEach`; its state is the pair of the
named results `value` and `err`, a nil `err` being `none`. -/
def valueForProtocolVisit (E : Env) (code : Int) (s : String × Option LookupError)
    (c : Component) (e : Option DecodeError) : (String × Option LookupError) × Bool :=
  match e with
  | some e => ((s.1, some (.decode e)), false)
  | none =>
    if (c.protocol.Code : Int) = code then ((E.Value c, none), false)
    else (s, true)

/-- `ValueForProtocol`: the results `value` and `err`. -/
def multiaddr.ValueForProtocol (E : Env) (m : multiaddr) (code : Int) :
    String × Option LookupError :=
  ForEach E m (valueForProtocolVisit E code) ("", some .ErrProtocolNotFound)

/-- The inner loop of `FilterAddrs` for one address, entered with the filters still to be
called: whether the address is kept, and, as a ghost counter, the number of filters that
have been called for it. -/
def filterAddrsInner (addr : Option multiaddr) :
    List (Option multiaddr → Bool) → Nat → Bool × Nat
  | [], calls => (true, calls)
  | filter :: rest, calls =>
    if !(filter addr) then (false, calls + 1)
    else filterAddrsInner addr rest (calls + 1)

/-- `FilterAddrs`. The addresses are interface values and may be nil. -/
def FilterAddrs (a : List (Option multiaddr)) (filters : List (Option multiaddr → Bool)) :
    List (Option multiaddr) :=
  a.foldl (fun b addr => if (filterAddrsInner addr filters 0).1 then b ++ [addr] else b) []

/-- `Contains`: whether `addr.Equal(a)` holds for some element `a` of `addrs`. -/
def Contains : List multiaddr → multiaddr → Bool
  | [], _ => false
  | a :: rest, addr => if addr.Equal (some a) then true else Contains rest addr

/-- `bytes.Compare` of Go's standard library: `-1`, `0` or `1` as `a` is less than, equal
to or greater than `b` in the lexicographic order of byte slices. -/
def bytesCompare (a b : List Nat) : Int :=
  if a < b then -1 else if a = b then 0 else 1

/-- `slices.SortFunc` of `golang.org/x/exp`: the slice is put into ascending order with
respect to `cmp`. The library does not promise a stable sort; the model is an insertion
sort, and `Unique` cannot tell the difference, since two addresses that compare equal
under `bytes.Compare` have the same buffer. -/
def SortFunc {α : Type} (cmp : α → α → Int) (x : List α) : List α :=
  x.insertionSort (fun a b => cmp a b ≤ 0)

/-- The comparison function that `Unique` hands to `slices.SortFunc`. -/
def uniqueCmp (a b : multiaddr) : Int :=
  bytesCompare a.Bytes b.Bytes

/-- The first loop of `Unique`, with `k` iterations to go, at index `i`, on the slice
`addrs` and with the write index `idx`: the slice and `idx` when the loop is left. -/
def uniqueLoop : Nat → Nat → List multiaddr → Nat → List multiaddr × Nat
  | 0, _, addrs, idx => (addrs, idx)
  | k + 1, i, addrs, idx =>
    match addrs[i - 1]?, addrs[i]? with
    | some p, some c =>
      if !(p.Equal (some c)) then uniqueLoop k (i + 1) (addrs.set idx c) (idx + 1)
      else uniqueLoop k (i + 1) addrs idx
    | _, _ => (addrs, idx)

/-- `Unique` on a slice of non-nil addresses. The second loop stores nil at the indices
from `idx` on, which lie outside of the slice `addrs[:idx]` that is returned. -/
def Unique (addrs : List multiaddr) : List multiaddr :=
  if addrs.length = 0 then addrs
  else
    (uniqueLoop ((SortFunc uniqueCmp addrs).length - 1) 1 (SortFunc uniqueCmp addrs) 1).1.take
      (uniqueLoop ((SortFunc uniqueCmp addrs).length - 1) 1 (SortFunc uniqueCmp addrs) 1).2

/-! ## `filter.go` -/

/-- The type `Action` is an `int32`; the three named values are `0`, `1`, `2`. -/
abbrev Action := Int

def ActionNone : Action := 0
def ActionAccept : Action := 1
def ActionDeny : Action := 2

/-- Go's `net.IPNet`: an address and a mask, both byte slices. -/
structure IPNet where
  IP : List Nat
  Mask : List Nat
  deriving DecidableEq, Repr

/-- The two methods of `net.IPNet` (Go standard library) that the filter engine calls:
`str` is `IPNet.String`, the normalized key of a network, and `contains` is
`IPNet.Contains`. -/
structure NetLib where
  str : IPNet → String
  contains : IPNet → List Nat → Bool

/-- The struct `filterEntry`. -/
structure filterEntry where
  f : IPNet
  action : Action
  deriving DecidableEq, Repr

/-- The struct `Filters` without its lock. -/
structure Filters where
  DefaultAction : Action
  filters : List filterEntry
  deriving DecidableEq, Repr

/-- `NewFilters`: accept by default, no rule. -/
def NewFilters : Filters :=
  { DefaultAction := ActionAccept, filters := [] }

/-- The loop of `find`, entered at index `idx` with the entries from there on. -/
def findFrom (L : NetLib) (s : String) : Nat → List filterEntry → Int × Option filterEntry
  | _, [] => (-1, none)
  | idx, ft :: rest =>
    if L.str ft.f = s then ((idx : Int), some ft) else findFrom L s (idx + 1) rest

/-- `find`: index and entry of the first rule whose key is that of `ipnet`, or `(-1, nil)`. -/
def Filters.find (L : NetLib) (fs : Filters) (ipnet : IPNet) : Int × Option filterEntry :=
  findFrom L (L.str ipnet) 0 fs.filters

/-- `AddFilter`: `find` hands out a pointer into the list, so the assignment
`f.action = action` changes the entry at the index found. -/
def Filters.AddFilter (L : NetLib) (fs : Filters) (ipnet : IPNet) (action : Action) : Filters :=
  match fs.find L ipnet with
  | (idx, some f) =>
    { fs with filters := fs.filters.set idx.toNat { f with action := action } }
  | (_, none) =>
    { fs with filters := fs.filters ++ [{ f := ipnet, action := action }] }

/-- `RemoveLiteral`: the new state and the flag `removed`. -/
def Filters.RemoveLiteral (L : NetLib) (fs : Filters) (ipnet : IPNet) : Filters × Bool :=
  let idx := (fs.find L ipnet).1
  if idx ≠ -1 then
    ({ fs with filters := fs.filters.take idx.toNat ++ fs.filters.drop (idx.toNat + 1) }, true)
  else (fs, false)

/-- The visitor that `AddrBlocked` hands to `ForEach`; its state is the pair of the
captured variables `netip` and `found`. -/
def addrBlockedVisit (E : Env) (s : List Nat × Bool) (c : Component) (e : Option DecodeError) :
    (List Nat × Bool) × Bool :=
  match e with
  | some _ => (s, false)
  | none =>
    if c.protocol.Code = E.P_IP6ZONE then (s, true)
    else if c.protocol.Code = E.P_IP6 ∨ c.protocol.Code = E.P_IP4 then ((c.rawValue, true), false)
    else (s, false)

/-- The loop of `AddrBlocked` over the rules. -/
def applyFilters (L : NetLib) (netip : List Nat) : List filterEntry → Action → Action
  | [], action => action
  | ft :: rest, action =>
    applyFilters L netip rest (if L.contains ft.f netip then ft.action else action)

/-- `AddrBlocked`. -/
def Filters.AddrBlocked (E : Env) (L : NetLib) (fs : Filters) (a : multiaddr) : Bool :=
  let r := ForEach E a (addrBlockedVisit E) ([], false)
  if !r.2 then decide (fs.DefaultAction = ActionDeny)
  else decide (applyFilters L r.1 fs.filters fs.DefaultAction = ActionDeny)

/-- `ActionForFilter`. -/
def Filters.ActionForFilter (L : NetLib) (fs : Filters) (ipnet : IPNet) : Action × Bool :=
  match fs.find L ipnet with
  | (_, some f) => (f.action, true)
  | (_, none) => (ActionNone, false)

/-- `FiltersForAction`. -/
def Filters.FiltersForAction (fs : Filters) (action : Action) : List IPNet :=
  (fs.filters.filter (fun ff => decide (ff.action = action))).map filterEntry.f

/-! ## The lock of `Filters`, as ghost state -/

/-- How the calling goroutine holds `fs.mu`: not at all, in shared mode (after `RLock`) or
exclusively (after `Lock`). -/
inductive Mu where
  | unlocked
  | shared
  | exclusive
  deriving DecidableEq, Repr

/-- What a method of `Filters` does to the lock and to the rule list `fs.filters`, entries
included: the four lock calls, a read and a write. -/
inductive Event where
  | Lock
  | Unlock
  | RLock
  | RUnlock
  | readFilters
  | writeFilters
  deriving DecidableEq, Repr

/-- The effect of an event on the lock. -/
def lockStep (mu : Mu) : Event → Mu
  | .Lock => .exclusive
  | .Unlock => .unlocked
  | .RLock => .shared
  | .RUnlock => .unlocked
  | .readFilters => mu
  | .writeFilters => mu

/-- The reads and writes of a run, each with the way the lock is held when it happens. -/
def accesses : Mu → List Event → List (Event × Mu)
  | _, [] => []
  | mu, .readFilters :: rest => (.readFilters, mu) :: accesses mu rest
  | mu, .writeFilters :: rest => (.writeFilters, mu) :: accesses mu rest
  | mu, e :: rest => accesses (lockStep mu e) rest

/-- The lock when the run is over. -/
def finalMu (mu : Mu) (tr : List Event) : Mu :=
  tr.foldl lockStep mu

/-- The run of `AddFilter` (filter.go:55-65): `Lock`, the loop of `find` over the list, then
the assignment to the action of the entry found or the append, `Unlock`. -/
def Filters.AddFilterEvents (L : NetLib) (fs : Filters) (ipnet : IPNet) : List Event :=
  [.Lock, .readFilters] ++
    (match fs.find L ipnet with
      | (_, some _) => [.writeFilters]
      | (_, none) => [.readFilters, .writeFilters]) ++
    [.Unlock]

/-- The run of `RemoveLiteral` (filter.go:70-81): `Lock`, the loop of `find`, then either the
rebuilt list, `Unlock` and `return true`, or `Unlock` and `return false`. -/
def Filters.RemoveLiteralEvents (L : NetLib) (fs : Filters) (ipnet : IPNet) : List Event :=
  [.Lock, .readFilters] ++
    (if (fs.find L ipnet).1 ≠ -1 then [.readFilters, .writeFilters, .Unlock]
      else [.Unlock])

/-- The run of `AddrBlocked` (filter.go:94-132): nothing on the path that returns the
default when no IP is found; otherwise `RLock`, the loop over the list, `RUnlock`. -/
def Filters.AddrBlockedEvents (E : Env) (a : multiaddr) : List Event :=
  if !(ForEach E a (addrBlockedVisit E) ([], false)).2 then []
  else [.RLock, .readFilters, .RUnlock]

/-- The run of `ActionForFilter` (filter.go:134-139): the loop of `find` and, when an entry
is found, the read of its action. The method calls neither `RLock` nor `Lock`. -/
def Filters.ActionForFilterEvents (L : NetLib) (fs : Filters) (ipnet : IPNet) : List Event :=
  [.readFilters] ++
    (match fs.find L ipnet with
      | (_, some _) => [.readFilters]
      | (_, none) => [])

/-- The run of `FiltersForAction` (filter.go:142-153): `RLock`, the loop over the list,
`RUnlock`. -/
def Filters.FiltersForActionEvents : List Event :=
  [.RLock, .readFilters, .RUnlock]

/-- The discipline of a reading method: whatever it touches of the rule list it reads, with
the lock held in shared mode, and the lock is free when it returns. -/
def ReadsShared (tr : List Event) : Prop :=
  (∀ x ∈ accesses .unlocked tr, x = (Event.readFilters, Mu.shared)) ∧
    finalMu .unlocked tr = .unlocked

/-- The discipline of a writing method: whatever it touches of the rule list it touches
with the lock held exclusively, and the lock is free when it returns. -/
def WritesExclusive (tr : List Event) : Prop :=
  (∀ x ∈ accesses .unlocked tr, x.2 = Mu.exclusive) ∧ finalMu .unlocked tr = .unlocked

instance (tr : List Event) : Decidable (ReadsShared tr) := by
  unfold ReadsShared; infer_instance

instance (tr : List Event) : Decidable (WritesExclusive tr) := by
  unfold WritesExclusive; infer_instance

/-! ## Auxiliary views used in the statements -/

/-- The walk of `ForEach` as data: the components decoded before the walk ends, and the
decode error that ended it, if any. -/
def visits (E : Env) : Nat → List Nat → List Component × Option DecodeError
  | 0, _ => ([], none)
  | fuel + 1, b =>
    if 0 < b.length then
      match readComponent E b with
      | .error e => ([], some e)
      | .ok (n, c) => (c :: (visits E fuel (b.drop n)).1, (visits E fuel (b.drop n)).2)
    else ([], none)

/-- A visitor run over a recorded walk. -/
def runVisit {σ : Type} (cb : σ → Component → Option DecodeError → σ × Bool) :
    List Component → Option DecodeError → σ → σ
  | [], none, s => s
  | [], some e, s => (cb s Component.zero (some e)).1
  | c :: cs, oe, s => if (cb s c none).2 then runVisit cb cs oe (cb s c none).1 else (cb s c none).1

/-- The component sequence of an address: what `ForEach` visits, up to the first decode
error. -/
def components (E : Env) (m : multiaddr) : List Component :=
  ForEach E m
    (fun (acc : List Component) c e =>
      match e with
      | some _ => (acc, false)
      | none => (acc ++ [c], true))
    []

/-- The specification's reading of the matching policy: the action of the last rule, in
list order, whose network contains `ip`, and the default action when there is none. -/
def lastMatchAction (L : NetLib) (fs : Filters) (ip : List Nat) : Action :=
  match (fs.filters.filter (fun r => L.contains r.f ip)).getLast? with
  | some r => r.action
  | none => fs.DefaultAction

/-- An address "whose extracted IP is `ip`": its components are zero or more ip6zone
components, then an ip4 or ip6 component with raw value `ip`, then anything. -/
def LeadsWithIP (E : Env) (a : multiaddr) (ip : List Nat) : Prop :=
  ∃ zs c rest, components E a = zs ++ c :: rest ∧
    (∀ z ∈ zs, z.protocol.Code = E.P_IP6ZONE) ∧
    (c.protocol.Code = E.P_IP4 ∨ c.protocol.Code = E.P_IP6) ∧ c.rawValue = ip

/-- The run of `ls` that starts at index `i` is the whole of `rs`. A sequence without
components is not regarded as occurring anywhere. -/
def OccursAt (ls rs : List multiaddr) (i : Nat) : Prop :=
  rs ≠ [] ∧ (ls.drop i).take rs.length = rs

instance (ls rs : List multiaddr) (i : Nat) : Decidable (OccursAt ls rs i) := by
  unfold OccursAt; infer_instance

/-- The right-most occurrence of `rs` in `ls` starts at index `i`. -/
def RightmostAt (ls rs : List multiaddr) (i : Nat) : Prop :=
  OccursAt ls rs i ∧ ∀ k, k < ls.length → i < k → ¬ OccursAt ls rs k

instance (ls rs : List multiaddr) (i : Nat) : Decidable (RightmostAt ls rs i) := by
  unfold RightmostAt; infer_instance

/-- A valid address: the walk over its buffer ends without a decode error, so the buffer is
the concatenation of the encodings of its components. The empty buffer is the valid address
without components. -/
def Valid (E : Env) (m : multiaddr) : Prop :=
  (visits E m.bytes.length m.bytes).2 = none

instance (E : Env) (m : multiaddr) : Decidable (Valid E m) := by
  unfold Valid; infer_instance

/-- An address in which the scan of `AddrBlocked` reaches no ip4 or ip6 component: its
components are zero or more ip6zone components, and what follows them is either nothing
(the address is empty, or holds ip6zone components only, or the walk ends there on a decode
error) or starts with a component that is neither ip6zone nor ip4 nor ip6. -/
def NoIPReached (E : Env) (a : multiaddr) : Prop :=
  ∃ zs rest, components E a = zs ++ rest ∧
    (∀ z ∈ zs, z.protocol.Code = E.P_IP6ZONE) ∧
    ∀ c, rest.head? = some c →
      c.protocol.Code ≠ E.P_IP6ZONE ∧ c.protocol.Code ≠ E.P_IP4 ∧ c.protocol.Code ≠ E.P_IP6

/-- The decode error that ends the walk over an address, if there is one. -/
def walkError (E : Env) (m : multiaddr) : Option DecodeError :=
  (visits E m.bytes.length m.bytes).2

/-! ## A concrete protocol table and a concrete `net` package, for the examples -/

/-- A protocol table with the entries the examples use: ip4 (code 4, 32 bits), tcp (6, 16
bits), ip6 (41, 128 bits), ip6zone (42, length-prefixed), udp (273, 16 bits) and quic-v1
(461, no value). Every other code is unknown. -/
def sampleProtocolWithCode (code : Nat) : Protocol :=
  if code = 4 then { Code := 4, Size := .fixed 32 }
  else if code = 6 then { Code := 6, Size := .fixed 16 }
  else if code = 41 then { Code := 41, Size := .fixed 128 }
  else if code = 42 then { Code := 42, Size := .varLen }
  else if code = 273 then { Code := 273, Size := .fixed 16 }
  else if code = 461 then { Code := 461, Size := .fixed 0 }
  else { Code := 0, Size := .fixed 0 }

/-- The values of the sample protocols as strings: dotted decimal for ip4, the decimal port
for tcp and udp, nothing for the others. -/
def sampleValue (c : Component) : String :=
  if c.protocol.Code = 4 then String.intercalate "." (c.rawValue.map toString)
  else if c.protocol.Code = 6 ∨ c.protocol.Code = 273 then
    match c.rawValue with
    | [hi, lo] => toString (256 * hi + lo)
    | _ => ""
  else ""

/-- The environment of the examples: the sample table, varints of at most nine bytes. -/
def sampleEnv : Env :=
  { ProtocolWithCode := sampleProtocolWithCode
    Value := sampleValue
    MaxVarintLen := 9
    P_IP4 := 4
    P_IP6 := 41
    P_IP6ZONE := 42
    zone_ne_ip4 := by decide
    zone_ne_ip6 := by decide }

/-- Number of leading one bits of a byte. -/
def leadingOnes (x : Nat) : Nat :=
  if x = 255 then 8 else if 254 ≤ x then 7 else if 252 ≤ x then 6 else if 248 ≤ x then 5
  else if 240 ≤ x then 4 else if 224 ≤ x then 3 else if 192 ≤ x then 2 else if 128 ≤ x then 1
  else 0

/-- Length of a mask made of full bytes followed by zero bytes, as written by `/8`, `/16`,
`/24` and `/32`. -/
def maskLength : List Nat → Nat
  | [] => 0
  | x :: rest => if x = 255 then 8 + maskLength rest else leadingOnes x

/-- `IPNet.String` on four-byte networks with a canonical mask: the dotted address, a
slash, the mask length. Used by the examples only. -/
def ip4String (n : IPNet) : String :=
  if n.IP.length = 4 ∧ n.Mask.length = 4 then
    String.intercalate "." (n.IP.map toString) ++ "/" ++ toString (maskLength n.Mask)
  else "<nil>"

/-- `IPNet.Contains` on four-byte networks and four-byte addresses: the address and the
network agree on every masked byte. Used by the examples only. -/
def ip4Contains (n : IPNet) (ip : List Nat) : Bool :=
  decide (n.IP.length = 4 ∧ n.Mask.length = 4 ∧ ip.length = 4) &&
    decide (List.zipWith Nat.land n.IP n.Mask = List.zipWith Nat.land ip n.Mask)

/-- The `net` package of the examples. -/
def ip4Lib : NetLib :=
  { str := ip4String, contains := ip4Contains }

/-- The network `10.0.0.0/8`. -/
def net10_8 : IPNet := { IP := [10, 0, 0, 0], Mask := [255, 0, 0, 0] }

/-- The network `10.0.0.0/16`. -/
def net10_16 : IPNet := { IP := [10, 0, 0, 0], Mask := [255, 255, 0, 0] }

/-- The address `/ip4/10.1.2.3/tcp/1`. -/
def addr_10_1_2_3 : multiaddr := { bytes := [4, 10, 1, 2, 3, 6, 0, 1] }

/-- The address `/ip4/8.8.8.8/tcp/1`. -/
def addr_8_8_8_8 : multiaddr := { bytes := [4, 8, 8, 8, 8, 6, 0, 1] }

/-- The address `/ip4/10.0.5.5/tcp/1`. -/
def addr_10_0_5_5 : multiaddr := { bytes := [4, 10, 0, 5, 5, 6, 0, 1] }

/-- The address `/ip4/10.1.2.3`. -/
def addr_ip4 : multiaddr := { bytes := [4, 10, 1, 2, 3] }

/-- The address `/tcp/1`. -/
def addr_tcp1 : multiaddr := { bytes := [6, 0, 1] }

/-- The address `/ip4/10.1.2.3/tcp/1/ip4/10.1.2.3/tcp/1`. -/
def addr_twice : multiaddr := { bytes := [4, 10, 1, 2, 3, 6, 0, 1, 4, 10, 1, 2, 3, 6, 0, 1] }

/-- The address without components. -/
def addr_empty : multiaddr := { bytes := [] }

/-- The address `/udp/1`. -/
def addr_udp1 : multiaddr := { bytes := [145, 2, 0, 1] }

/-- The address `/tcp/1/ip4/10.1.2.3`. -/
def addr_tcp_ip4 : multiaddr := { bytes := [6, 0, 1, 4, 10, 1, 2, 3] }

/-- The address `/ip6zone/x`. -/
def addr_zone : multiaddr := { bytes := [42, 1, 120] }

/-- The address `/ip4/1.2.3.4/tcp/1234`. -/
def addr_1_2_3_4 : multiaddr := { bytes := [4, 1, 2, 3, 4, 6, 4, 210] }

/-- A buffer that is cut inside the value of its ip4 component. -/
def addr_cut : multiaddr := { bytes := [4, 10, 1] }

/-- A parser of the textual form that knows `/ip4/10.1.2.3/tcp/1` and `/ip4/10.1.2.3` and
rejects every other text as naming an unknown protocol. -/
def sampleStringToBytes (s : String) : Except DecodeError (List Nat) :=
  if s = "/ip4/10.1.2.3/tcp/1" then .ok [4, 10, 1, 2, 3, 6, 0, 1]
  else if s = "/ip4/10.1.2.3" then .ok [4, 10, 1, 2, 3]
  else .error .unknownProtocol

/-- A decoder of JSON string literals without escapes: the text between the two quotes. -/
def sampleJsonUnmarshal (data : String) : Except String String :=
  match data.toList with
  | c :: rest =>
    if c = Char.ofNat 34 ∧ rest.getLast? = some (Char.ofNat 34) ∧
        (∀ x ∈ rest.dropLast, x ≠ Char.ofNat 34 ∧ x ≠ Char.ofNat 92) then
      .ok (String.mk rest.dropLast)
    else .error "not a string literal"
  | [] => .error "unexpected end of JSON input"

/-- The parsers of the examples. -/
def sampleParsers : Parsers :=
  { stringToBytes := sampleStringToBytes, jsonUnmarshal := sampleJsonUnmarshal }

/-- The JSON text made of the string literal with the content `/bogus`. -/
def jsonBogus : String :=
  String.mk ([Char.ofNat 34] ++ "/bogus".toList ++ [Char.ofNat 34])

/-- The JSON text made of the string literal with the content `/ip4/10.1.2.3`. -/
def jsonIP4 : String :=
  String.mk ([Char.ofNat 34] ++ "/ip4/10.1.2.3".toList ++ [Char.ofNat 34])

/-! ## Reachable states of the filter engine -/

/-- The states of `Filters` that `NewFilters` followed by any sequence of `AddFilter` and
`RemoveLiteral` calls can produce. -/
inductive Reachable (L : NetLib) : Filters → Prop where
  | new : Reachable L NewFilters
  | add (fs : Filters) (n : IPNet) (act : Action) :
      Reachable L fs → Reachable L (fs.AddFilter L n act)
  | remove (fs : Filters) (n : IPNet) :
      Reachable L fs → Reachable L (fs.RemoveLiteral L n).1

/-- The normalized keys of the rules, in list order. -/
def Filters.keys (L : NetLib) (fs : Filters) : List String :=
  fs.filters.map (fun e => L.str e.f)

/-! # Properties -/

/-! ## Walks -/

theorem forEachLoop_eq_runVisit {σ : Type} (E : Env)
    (cb : σ → Component → Option DecodeError → σ × Bool) (fuel : Nat) :
    ∀ (b : List Nat) (s : σ),
      ForEachLoop E cb fuel b s = runVisit cb (visits E fuel b).1 (visits E fuel b).2 s := by
  induction fuel with
  | zero => intro b s; simp [ForEachLoop, visits, runVisit]
  | succ fuel ih =>
    intro b s
    unfold ForEachLoop visits
    by_cases hb : 0 < b.length
    · simp only [hb, if_true]
      cases hr : readComponent E b with
      | error e => simp [runVisit]
      | ok r =>
        obtain ⟨n, c⟩ := r
        simp only [runVisit]
        by_cases hc : (cb s c none).2 = true
        · simp [hc, ih]
        · simp [hc]
    · simp [hb, runVisit]

theorem forEach_eq_runVisit {σ : Type} (E : Env) (m : multiaddr)
    (cb : σ → Component → Option DecodeError → σ × Bool) (s : σ) :
    ForEach E m cb s =
      runVisit cb (visits E m.bytes.length m.bytes).1 (visits E m.bytes.length m.bytes).2 s :=
  forEachLoop_eq_runVisit E cb _ _ _

theorem runVisit_collect {β : Type} (g : Component → β) (cs : List Component)
    (oe : Option DecodeError) :
    ∀ acc : List β,
      runVisit (fun (acc : List β) c e =>
        match e with
        | some _ => (acc, false)
        | none => (acc ++ [g c], true)) cs oe acc = acc ++ cs.map g := by
  induction cs with
  | nil => intro acc; cases oe <;> simp [runVisit]
  | cons c cs ih => intro acc; simp [runVisit, ih]

theorem components_eq_visits (E : Env) (m : multiaddr) :
    components E m = (visits E m.bytes.length m.bytes).1 := by
  unfold components
  rw [forEach_eq_runVisit]
  have h := runVisit_collect (fun c => c) (visits E m.bytes.length m.bytes).1
    (visits E m.bytes.length m.bytes).2 []
  simpa using h

theorem split_eq_components (E : Env) (m : multiaddr) :
    Split E m = (components E m).map (fun c => ({ bytes := c.bytes } : multiaddr)) := by
  rw [components_eq_visits]
  unfold Split
  rw [forEach_eq_runVisit]
  have h := runVisit_collect (fun c => ({ bytes := c.bytes } : multiaddr))
    (visits E m.bytes.length m.bytes).1 (visits E m.bytes.length m.bytes).2 []
  simpa using h

/-! ## The scan of `AddrBlocked` -/

theorem runVisit_addrBlocked (E : Env) (c : Component) (rest : List Component)
    (oe : Option DecodeError)
    (hc : c.protocol.Code = E.P_IP4 ∨ c.protocol.Code = E.P_IP6) :
    ∀ (zs : List Component) (s : List Nat × Bool),
      (∀ z ∈ zs, z.protocol.Code = E.P_IP6ZONE) →
      runVisit (addrBlockedVisit E) (zs ++ c :: rest) oe s = (c.rawValue, true) := by
  intro zs
  induction zs with
  | nil =>
    intro s _
    have hz : c.protocol.Code ≠ E.P_IP6ZONE := by
      rcases hc with h | h
      · rw [h]; exact fun h' => E.zone_ne_ip4 h'.symm
      · rw [h]; exact fun h' => E.zone_ne_ip6 h'.symm
    have hc' : c.protocol.Code = E.P_IP6 ∨ c.protocol.Code = E.P_IP4 := hc.symm
    simp [runVisit, addrBlockedVisit, hz, hc']
  | cons z zs ih =>
    intro s hzs
    have hz : z.protocol.Code = E.P_IP6ZONE := hzs z (List.mem_cons_self _ _)
    have hrest : ∀ z' ∈ zs, z'.protocol.Code = E.P_IP6ZONE :=
      fun z' hz' => hzs z' (List.mem_cons_of_mem _ hz')
    simp [runVisit, addrBlockedVisit, hz, ih s hrest]

theorem scan_of_leadsWithIP (E : Env) (a : multiaddr) (ip : List Nat)
    (h : LeadsWithIP E a ip) :
    ForEach E a (addrBlockedVisit E) ([], false) = (ip, true) := by
  obtain ⟨zs, c, rest, hcomp, hzs, hc, hraw⟩ := h
  rw [forEach_eq_runVisit, ← components_eq_visits, hcomp, ← hraw]
  exact runVisit_addrBlocked E c rest _ hc zs _ hzs

theorem applyFilters_eq (L : NetLib) (ip : List Nat) :
    ∀ (fl : List filterEntry) (act : Action),
      applyFilters L ip fl act =
        match (fl.filter (fun r => L.contains r.f ip)).getLast? with
        | some r => r.action
        | none => act := by
  intro fl
  induction fl with
  | nil => intro act; simp [applyFilters]
  | cons ft rest ih =>
    intro act
    rw [applyFilters, ih, List.filter_cons]
    by_cases hft : L.contains ft.f ip = true
    · simp only [hft, if_true, List.getLast?_cons]
      cases (List.filter (fun r => L.contains r.f ip) rest).getLast? <;> simp
    · simp [hft]

theorem addrBlocked_of_leadsWithIP (E : Env) (L : NetLib) (fs : Filters) (a : multiaddr)
    (ip : List Nat) (h : LeadsWithIP E a ip) :
    fs.AddrBlocked E L a = decide (lastMatchAction L fs ip = ActionDeny) := by
  unfold Filters.AddrBlocked lastMatchAction
  rw [scan_of_leadsWithIP E a ip h]
  simp only [Bool.not_true, Bool.false_eq_true, if_false]
  rw [applyFilters_eq]

/-! ## C1 -/

/-- C1: for every state of the filters and every address whose components are zero or more
ip6zone components followed by an ip4 or ip6 component with raw value `ip`, `AddrBlocked`
is true exactly when the action of the last rule, in list order, whose network contains
`ip` is `ActionDeny`, the default action standing in when no rule contains `ip`. -/
theorem C1_addrBlocked_last_match_wins (E : Env) (L : NetLib) (fs : Filters) (a : multiaddr)
    (ip : List Nat) (h : LeadsWithIP E a ip) :
    fs.AddrBlocked E L a = true ↔ lastMatchAction L fs ip = ActionDeny := by
  rw [addrBlocked_of_leadsWithIP E L fs a ip h]
  simp

/-- C1 at `/ip4/10.1.2.3/tcp/1` with the single rule `10.0.0.0/8` deny over the default
accept: the address is blocked, and `/ip4/8.8.8.8/tcp/1` is not. -/
theorem C1_addrBlocked_last_match_wins_witness :
    LeadsWithIP sampleEnv addr_10_1_2_3 [10, 1, 2, 3] ∧
      ((NewFilters.AddFilter ip4Lib net10_8 ActionDeny).AddrBlocked sampleEnv ip4Lib
          addr_10_1_2_3 = true ↔
        lastMatchAction ip4Lib (NewFilters.AddFilter ip4Lib net10_8 ActionDeny) [10, 1, 2, 3] =
          ActionDeny) ∧
      (NewFilters.AddFilter ip4Lib net10_8 ActionDeny).AddrBlocked sampleEnv ip4Lib
        addr_10_1_2_3 = true ∧
      (NewFilters.AddFilter ip4Lib net10_8 ActionDeny).AddrBlocked sampleEnv ip4Lib
        addr_8_8_8_8 = false :=
  have h : LeadsWithIP sampleEnv addr_10_1_2_3 [10, 1, 2, 3] :=
    ⟨[], ⟨⟨4, .fixed 32⟩, [10, 1, 2, 3], [4, 10, 1, 2, 3]⟩, [⟨⟨6, .fixed 16⟩, [0, 1], [6, 0, 1]⟩],
      by decide, by simp, Or.inl rfl, rfl⟩
  ⟨h, C1_addrBlocked_last_match_wins sampleEnv ip4Lib _ addr_10_1_2_3 [10, 1, 2, 3] h,
    by decide, by decide⟩

/-! ## C2 -/

/-- C2: the rules `10.0.0.0/8` accept and `10.0.0.0/16` deny are added in this order to
the filters made by `NewFilters`, then `AddFilter(10.0.0.0/8, accept)` is called again.
The address `/ip4/10.0.5.5/tcp/1` has the extracted IP `10.0.5.5`, which `10.0.0.0/8`
contains, and yet `AddrBlocked` answers true: the policy added last is not the one that
decides, because `AddFilter` rewrote the first rule in place and left the deny rule last. -/
theorem C2_last_added_not_authoritative :
    LeadsWithIP sampleEnv addr_10_0_5_5 [10, 0, 5, 5] ∧
      ip4Lib.contains net10_8 [10, 0, 5, 5] = true ∧
      ((((NewFilters.AddFilter ip4Lib net10_8 ActionAccept).AddFilter ip4Lib net10_16
          ActionDeny).AddFilter ip4Lib net10_8 ActionAccept).AddrBlocked sampleEnv ip4Lib
          addr_10_0_5_5 = true) ∧
      decide (ActionAccept = ActionDeny) = false :=
  ⟨⟨[], ⟨⟨4, .fixed 32⟩, [10, 0, 5, 5], [4, 10, 0, 5, 5]⟩, [⟨⟨6, .fixed 16⟩, [0, 1], [6, 0, 1]⟩],
      by decide, by simp, Or.inl rfl, rfl⟩,
    by decide, by decide, by decide⟩

/-! ## C3 -/

/-- C3: from filters without rules and with any default action, after `AddFilter(n1, act1)`
and then `AddFilter(n2, act2)` for two networks that both contain `ip`, `AddrBlocked` of
an address whose extracted IP is `ip` is `act2 == ActionDeny`: the rule inserted later
decides, whatever the two masks are. -/
theorem C3_insertion_order_decides (E : Env) (L : NetLib) (d : Action) (n1 n2 : IPNet)
    (act1 act2 : Action) (a : multiaddr) (ip : List Nat) (h : LeadsWithIP E a ip)
    (h1 : L.contains n1 ip = true) (h2 : L.contains n2 ip = true) :
    ((({ DefaultAction := d, filters := [] } : Filters).AddFilter L n1 act1).AddFilter L n2
        act2).AddrBlocked E L a = decide (act2 = ActionDeny) := by
  rw [addrBlocked_of_leadsWithIP E L _ a ip h]
  by_cases hk : L.str n1 = L.str n2
  · simp [Filters.AddFilter, Filters.find, findFrom, hk, lastMatchAction, h1]
  · simp [Filters.AddFilter, Filters.find, findFrom, hk, lastMatchAction, h1, h2]

/-- C3 at the rules `10.0.0.0/8` deny then `10.0.0.0/16` accept and the IP `10.0.5.5`: the
address is accepted. -/
theorem C3_insertion_order_decides_witness :
    LeadsWithIP sampleEnv addr_10_0_5_5 [10, 0, 5, 5] ∧
      ip4Lib.contains net10_8 [10, 0, 5, 5] = true ∧
      ip4Lib.contains net10_16 [10, 0, 5, 5] = true ∧
      ((({ DefaultAction := ActionAccept, filters := [] } : Filters).AddFilter ip4Lib net10_8
          ActionDeny).AddFilter ip4Lib net10_16 ActionAccept).AddrBlocked sampleEnv ip4Lib
          addr_10_0_5_5 = decide (ActionAccept = ActionDeny) :=
  have h : LeadsWithIP sampleEnv addr_10_0_5_5 [10, 0, 5, 5] :=
    ⟨[], ⟨⟨4, .fixed 32⟩, [10, 0, 5, 5], [4, 10, 0, 5, 5]⟩, [⟨⟨6, .fixed 16⟩, [0, 1], [6, 0, 1]⟩],
      by decide, by simp, Or.inl rfl, rfl⟩
  ⟨h, by decide, by decide,
    C3_insertion_order_decides sampleEnv ip4Lib ActionAccept net10_8 net10_16 ActionDeny
      ActionAccept addr_10_0_5_5 [10, 0, 5, 5] h (by decide) (by decide)⟩

/-! ## `find` -/

theorem findFrom_none (L : NetLib) (s : String) :
    ∀ (fl : List filterEntry) (i : Nat), (∀ e ∈ fl, L.str e.f ≠ s) →
      findFrom L s i fl = (-1, none) := by
  intro fl
  induction fl with
  | nil => intro i _; rfl
  | cons e rest ih =>
    intro i h
    have he : L.str e.f ≠ s := h e (List.mem_cons_self _ _)
    rw [findFrom, if_neg he]
    exact ih (i + 1) (fun x hx => h x (List.mem_cons_of_mem _ hx))

theorem findFrom_first (L : NetLib) (s : String) (e : filterEntry) (post : List filterEntry)
    (he : L.str e.f = s) :
    ∀ (pre : List filterEntry) (i : Nat), (∀ x ∈ pre, L.str x.f ≠ s) →
      findFrom L s i (pre ++ e :: post) = (((i + pre.length : Nat) : Int), some e) := by
  intro pre
  induction pre with
  | nil => intro i _; simp [findFrom, he]
  | cons x pre ih =>
    intro i h
    have hx : L.str x.f ≠ s := h x (List.mem_cons_self _ _)
    rw [List.cons_append, findFrom, if_neg hx,
      ih (i + 1) (fun y hy => h y (List.mem_cons_of_mem _ hy))]
    simp only [List.length_cons]
    congr 2
    omega

theorem exists_first_key (L : NetLib) (s : String) :
    ∀ fl : List filterEntry, (∃ e ∈ fl, L.str e.f = s) →
      ∃ pre e post, fl = pre ++ e :: post ∧ (∀ x ∈ pre, L.str x.f ≠ s) ∧ L.str e.f = s := by
  intro fl
  induction fl with
  | nil => rintro ⟨e, he, _⟩; simp at he
  | cons x rest ih =>
    rintro ⟨e, he, hk⟩
    by_cases hx : L.str x.f = s
    · exact ⟨[], x, rest, rfl, by simp, hx⟩
    · have hrest : ∃ e ∈ rest, L.str e.f = s := by
        rcases List.mem_cons.mp he with h | h
        · exact absurd (h ▸ hk) hx
        · exact ⟨e, h, hk⟩
      obtain ⟨pre, e', post, hfl, hpre, he'⟩ := ih hrest
      refine ⟨x :: pre, e', post, by simp [hfl], ?_, he'⟩
      intro y hy
      rcases List.mem_cons.mp hy with h | h
      · exact h ▸ hx
      · exact hpre y h

theorem find_none (L : NetLib) (fs : Filters) (n : IPNet)
    (h : ∀ e ∈ fs.filters, L.str e.f ≠ L.str n) : fs.find L n = (-1, none) :=
  findFrom_none L _ _ 0 h

theorem find_first (L : NetLib) (fs : Filters) (n : IPNet) (pre : List filterEntry)
    (e : filterEntry) (post : List filterEntry) (hfl : fs.filters = pre ++ e :: post)
    (hpre : ∀ x ∈ pre, L.str x.f ≠ L.str n) (he : L.str e.f = L.str n) :
    fs.find L n = ((pre.length : Int), some e) := by
  unfold Filters.find
  rw [hfl, findFrom_first L _ e post he pre 0 hpre]
  simp

/-! ## The keys of a reachable state are pairwise distinct -/

theorem keys_addFilter_nodup (L : NetLib) (fs : Filters) (n : IPNet) (act : Action)
    (h : (fs.keys L).Nodup) : ((fs.AddFilter L n act).keys L).Nodup := by
  by_cases hex : ∃ e ∈ fs.filters, L.str e.f = L.str n
  · obtain ⟨pre, e, post, hfl, hpre, he⟩ := exists_first_key L _ _ hex
    have hk : (fs.AddFilter L n act).keys L = fs.keys L := by
      unfold Filters.AddFilter Filters.keys
      rw [find_first L fs n pre e post hfl hpre he]
      simp [hfl]
    rw [hk]; exact h
  · have hno : ∀ e ∈ fs.filters, L.str e.f ≠ L.str n := fun e he hk => hex ⟨e, he, hk⟩
    unfold Filters.AddFilter Filters.keys
    rw [find_none L fs n hno]
    simp only [List.map_append, List.map_cons, List.map_nil]
    rw [List.nodup_append]
    refine ⟨h, List.nodup_singleton _, ?_⟩
    intro k hk1 hk2
    simp only [List.mem_singleton] at hk2
    obtain ⟨e, he, hek⟩ := List.mem_map.mp hk1
    exact hno e he (hek.trans hk2)

theorem keys_removeLiteral_nodup (L : NetLib) (fs : Filters) (n : IPNet)
    (h : (fs.keys L).Nodup) : (((fs.RemoveLiteral L n).1).keys L).Nodup := by
  by_cases hex : ∃ e ∈ fs.filters, L.str e.f = L.str n
  · obtain ⟨pre, e, post, hfl, hpre, he⟩ := exists_first_key L _ _ hex
    unfold Filters.RemoveLiteral Filters.keys
    rw [find_first L fs n pre e post hfl hpre he]
    unfold Filters.keys at h
    rw [hfl] at h ⊢
    have hne : ((pre.length : Nat) : Int) ≠ -1 := by omega
    simp only [hne, ne_eq, not_false_eq_true, if_true, Int.toNat_ofNat]
    have hsub : (pre ++ post).Sublist (pre ++ e :: post) :=
      List.Sublist.append (List.Sublist.refl pre) (List.sublist_cons_self e post)
    have : (List.take pre.length (pre ++ e :: post) ++
        List.drop (pre.length + 1) (pre ++ e :: post)) = pre ++ post := by simp
    rw [this]
    exact List.Nodup.sublist (List.Sublist.map _ hsub) h
  · have hno : ∀ e ∈ fs.filters, L.str e.f ≠ L.str n := fun e he hk => hex ⟨e, he, hk⟩
    unfold Filters.RemoveLiteral
    rw [find_none L fs n hno]
    simpa using h

theorem reachable_keys_nodup (L : NetLib) (fs : Filters) (h : Reachable L fs) :
    (fs.keys L).Nodup := by
  induction h with
  | new => simp [Filters.keys, NewFilters]
  | add fs n act _ ih => exact keys_addFilter_nodup L fs n act ih
  | remove fs n _ ih => exact keys_removeLiteral_nodup L fs n ih

/-! ## C8 -/

/-- C8: in every state reachable from `NewFilters` by `AddFilter` and `RemoveLiteral`, and
for every network `n`: when no rule has the key of `n`, `RemoveLiteral(n)` returns false and
leaves the rules as they are; when some rule has it, `RemoveLiteral(n)` returns true, takes
out the first such rule only and keeps the others in order, and `ActionForFilter(n)` on the
new state reports `(ActionNone, false)`. -/
theorem C8_removeLiteral (L : NetLib) (fs : Filters) (n : IPNet) (hr : Reachable L fs) :
    ((∀ e ∈ fs.filters, L.str e.f ≠ L.str n) → fs.RemoveLiteral L n = (fs, false)) ∧
    ((∃ e ∈ fs.filters, L.str e.f = L.str n) →
      ∃ pre e post, fs.filters = pre ++ e :: post ∧ (∀ x ∈ pre, L.str x.f ≠ L.str n) ∧
        L.str e.f = L.str n ∧
        fs.RemoveLiteral L n = ({ fs with filters := pre ++ post }, true) ∧
        (fs.RemoveLiteral L n).1.ActionForFilter L n = (ActionNone, false)) := by
  constructor
  · intro hno
    unfold Filters.RemoveLiteral
    rw [find_none L fs n hno]
    simp
  · intro hex
    obtain ⟨pre, e, post, hfl, hpre, he⟩ := exists_first_key L _ _ hex
    have hrm : fs.RemoveLiteral L n = ({ fs with filters := pre ++ post }, true) := by
      unfold Filters.RemoveLiteral
      rw [find_first L fs n pre e post hfl hpre he]
      have hne : ((pre.length : Nat) : Int) ≠ -1 := by omega
      simp only [hne, ne_eq, not_false_eq_true, if_true, Int.toNat_ofNat]
      rw [hfl]
      simp
    refine ⟨pre, e, post, hfl, hpre, he, hrm, ?_⟩
    have hnd : (fs.keys L).Nodup := reachable_keys_nodup L fs hr
    unfold Filters.keys at hnd
    rw [hfl, List.map_append, List.map_cons, List.nodup_append, List.nodup_cons] at hnd
    have hpost : ∀ x ∈ post, L.str x.f ≠ L.str n := by
      intro x hx hk
      apply hnd.2.1.1
      rw [he, ← hk]
      exact List.mem_map.mpr ⟨x, hx, rfl⟩
    have hall : ∀ x ∈ ({ fs with filters := pre ++ post } : Filters).filters,
        L.str x.f ≠ L.str n := by
      intro x hx
      rcases List.mem_append.mp hx with h | h
      · exact hpre x h
      · exact hpost x h
    rw [hrm]
    unfold Filters.ActionForFilter
    rw [find_none L _ n hall]

/-- C8 at the state holding the rules `10.0.0.0/8` deny and `10.0.0.0/16` accept: removing
`10.0.0.0/8` succeeds and leaves the other rule. -/
theorem C8_removeLiteral_witness :
    Reachable ip4Lib ((NewFilters.AddFilter ip4Lib net10_8 ActionDeny).AddFilter ip4Lib net10_16
        ActionAccept) ∧
      ∃ pre e post,
        ((NewFilters.AddFilter ip4Lib net10_8 ActionDeny).AddFilter ip4Lib net10_16
          ActionAccept).filters = pre ++ e :: post ∧
        (∀ x ∈ pre, ip4Lib.str x.f ≠ ip4Lib.str net10_8) ∧
        ip4Lib.str e.f = ip4Lib.str net10_8 ∧
        ((NewFilters.AddFilter ip4Lib net10_8 ActionDeny).AddFilter ip4Lib net10_16
          ActionAccept).RemoveLiteral ip4Lib net10_8 =
          ({ ((NewFilters.AddFilter ip4Lib net10_8 ActionDeny).AddFilter ip4Lib net10_16
            ActionAccept) with filters := pre ++ post }, true) ∧
        (((NewFilters.AddFilter ip4Lib net10_8 ActionDeny).AddFilter ip4Lib net10_16
          ActionAccept).RemoveLiteral ip4Lib net10_8).1.ActionForFilter ip4Lib net10_8 =
          (ActionNone, false) :=
  have hr : Reachable ip4Lib ((NewFilters.AddFilter ip4Lib net10_8 ActionDeny).AddFilter ip4Lib
      net10_16 ActionAccept) :=
    Reachable.add _ _ _ (Reachable.add _ _ _ Reachable.new)
  ⟨hr, (C8_removeLiteral ip4Lib _ net10_8 hr).2
    ⟨{ f := net10_8, action := ActionDeny }, by decide, by decide⟩⟩

/-! ## C9 -/

/-- C9: `AddFilter(n, act)` is an upsert by normalized key. If a rule with the key of `n`
exists, the first such rule gets the action `act` and the list is otherwise the same, rule
for rule and in the same order; if not, the rule `(n, act)` is appended and the rules that
were there are unchanged. Either way `ActionForFilter(n)` then returns `(act, true)` and
`DefaultAction` is what it was. -/
theorem C9_addFilter_upsert (L : NetLib) (fs : Filters) (n : IPNet) (act : Action) :
    ((∃ e ∈ fs.filters, L.str e.f = L.str n) →
      ∃ pre e post, fs.filters = pre ++ e :: post ∧ (∀ x ∈ pre, L.str x.f ≠ L.str n) ∧
        L.str e.f = L.str n ∧
        (fs.AddFilter L n act).filters = pre ++ { f := e.f, action := act } :: post) ∧
    ((∀ e ∈ fs.filters, L.str e.f ≠ L.str n) →
      (fs.AddFilter L n act).filters = fs.filters ++ [{ f := n, action := act }]) ∧
    (fs.AddFilter L n act).ActionForFilter L n = (act, true) ∧
    (fs.AddFilter L n act).DefaultAction = fs.DefaultAction := by
  have hupd : ∀ pre e post, fs.filters = pre ++ e :: post →
      (∀ x ∈ pre, L.str x.f ≠ L.str n) → L.str e.f = L.str n →
      (fs.AddFilter L n act).filters = pre ++ { f := e.f, action := act } :: post := by
    intro pre e post hfl hpre he
    unfold Filters.AddFilter
    rw [find_first L fs n pre e post hfl hpre he]
    simp [hfl]
  have happ : (∀ e ∈ fs.filters, L.str e.f ≠ L.str n) →
      (fs.AddFilter L n act).filters = fs.filters ++ [{ f := n, action := act }] := by
    intro hno
    unfold Filters.AddFilter
    rw [find_none L fs n hno]
  refine ⟨?_, happ, ?_, ?_⟩
  · intro hex
    obtain ⟨pre, e, post, hfl, hpre, he⟩ := exists_first_key L _ _ hex
    exact ⟨pre, e, post, hfl, hpre, he, hupd pre e post hfl hpre he⟩
  · by_cases hex : ∃ e ∈ fs.filters, L.str e.f = L.str n
    · obtain ⟨pre, e, post, hfl, hpre, he⟩ := exists_first_key L _ _ hex
      unfold Filters.ActionForFilter
      rw [find_first L (fs.AddFilter L n act) n pre { f := e.f, action := act } post
        (hupd pre e post hfl hpre he) hpre he]
    · have hno : ∀ e ∈ fs.filters, L.str e.f ≠ L.str n := fun e he hk => hex ⟨e, he, hk⟩
      unfold Filters.ActionForFilter
      rw [find_first L (fs.AddFilter L n act) n fs.filters { f := n, action := act } []
        (happ hno) hno rfl]
  · unfold Filters.AddFilter
    cases h : fs.find L n with
    | mk idx o => cases o <;> rfl

/-! ## C10 -/

/-- C10: in every state reachable from `NewFilters` by `AddFilter` and `RemoveLiteral`, any
two rules at different places of the list have different normalized keys. -/
theorem C10_keys_unique (L : NetLib) (fs : Filters) (hr : Reachable L fs) :
    fs.filters.Pairwise (fun e1 e2 => L.str e1.f ≠ L.str e2.f) := by
  have h := reachable_keys_nodup L fs hr
  unfold Filters.keys List.Nodup at h
  exact (List.pairwise_map).mp h

/-- C10 after adding `10.0.0.0/8` twice, with two different actions: one rule. -/
theorem C10_keys_unique_witness :
    Reachable ip4Lib ((NewFilters.AddFilter ip4Lib net10_8 ActionDeny).AddFilter ip4Lib net10_8
        ActionAccept) ∧
      ((NewFilters.AddFilter ip4Lib net10_8 ActionDeny).AddFilter ip4Lib net10_8
        ActionAccept).filters.Pairwise (fun e1 e2 => ip4Lib.str e1.f ≠ ip4Lib.str e2.f) ∧
      ((NewFilters.AddFilter ip4Lib net10_8 ActionDeny).AddFilter ip4Lib net10_8
        ActionAccept).filters = [{ f := net10_8, action := ActionAccept }] :=
  have hr : Reachable ip4Lib ((NewFilters.AddFilter ip4Lib net10_8 ActionDeny).AddFilter ip4Lib
      net10_8 ActionAccept) :=
    Reachable.add _ _ _ (Reachable.add _ _ _ Reachable.new)
  ⟨hr, C10_keys_unique ip4Lib _ hr, by decide⟩

/-! ## The loops of `Decapsulate` -/

theorem multiaddr_eq_iff (x y : multiaddr) : x.bytes = y.bytes ↔ x = y := by
  cases x; cases y; simp

theorem decapMatch_eq (ls : List multiaddr) (i : Nat) :
    ∀ (rs : List multiaddr) (j : Nat) (fm : Bool),
      decapMatch ls i j rs fm =
        if rs = [] then fm else decide ((ls.drop (i + j)).take rs.length = rs) := by
  intro rs
  induction rs with
  | nil => intro j fm; simp [decapMatch]
  | cons r rest ih =>
    intro j fm
    rw [decapMatch]
    by_cases hlen : ls.length ≤ i + j
    · simp [hlen, List.drop_eq_nil_of_le hlen]
    · have hlt : i + j < ls.length := Nat.lt_of_not_le hlen
      have hdrop : ls.drop (i + j) = ls[i + j] :: ls.drop (i + j + 1) :=
        List.drop_eq_getElem_cons hlt
      have hget : ls[i + j]? = some ls[i + j] := List.getElem?_eq_getElem hlt
      simp only [hlen, if_false, hget, multiaddr.Equal, hdrop, List.length_cons,
        List.take_succ_cons, List.cons.injEq, reduceCtorEq, multiaddr_eq_iff]
      by_cases heq : r = ls[i + j]
      · subst heq
        simp only [decide_True, Bool.not_true, Bool.false_eq_true, if_false, true_and]
        rw [ih (j + 1) true]
        by_cases hrest : rest = []
        · subst hrest; simp
        · simp [hrest, Nat.add_assoc]
      · have heq' : ¬ ls[i + j] = r := fun h => heq h.symm
        simp [heq, heq']

theorem decapMatch_iff (ls rs : List multiaddr) (i : Nat) :
    decapMatch ls i 0 rs false = true ↔ OccursAt ls rs i := by
  rw [decapMatch_eq]
  unfold OccursAt
  by_cases h : rs = []
  · simp [h]
  · simp [h]

theorem foldl_last_true (P : Nat → Bool) :
    ∀ n : Nat,
      ((List.range n).foldl (fun (r : Int) i => if P i then (i : Int) else r) (-1) = -1 ∧
        ∀ i, i < n → P i = false) ∨
      ∃ i, i < n ∧
        (List.range n).foldl (fun (r : Int) i => if P i then (i : Int) else r) (-1) = (i : Int) ∧
        P i = true ∧ ∀ k, k < n → i < k → P k = false := by
  intro n
  induction n with
  | zero => left; simp
  | succ n ih =>
    rw [List.range_succ, List.foldl_append]
    simp only [List.foldl_cons, List.foldl_nil]
    by_cases hn : P n = true
    · right
      refine ⟨n, Nat.lt_succ_self n, by simp [hn], hn, ?_⟩
      intro k hk hnk; omega
    · have hn' : P n = false := by simpa using hn
      rcases ih with ⟨hr, hall⟩ | ⟨i, hi, hr, hpi, hafter⟩
      · left
        refine ⟨by simp [hn', hr], ?_⟩
        intro i hi
        rcases Nat.lt_succ_iff_lt_or_eq.mp hi with h | h
        · exact hall i h
        · exact h ▸ hn'
      · right
        refine ⟨i, Nat.lt_succ_of_lt hi, by simp [hn', hr], hpi, ?_⟩
        intro k hk hik
        rcases Nat.lt_succ_iff_lt_or_eq.mp hk with h | h
        · exact hafter k h hik
        · exact h ▸ hn'

theorem occursAt_lt (ls rs : List multiaddr) (i : Nat) (h : OccursAt ls rs i) : i < ls.length := by
  by_contra hge
  have hle : ls.length ≤ i := Nat.le_of_not_lt hge
  obtain ⟨hne, heq⟩ := h
  rw [List.drop_eq_nil_of_le hle] at heq
  simp at heq
  exact hne heq

theorem decapLastIndex_rightmost (ls rs : List multiaddr) (i : Nat)
    (h : RightmostAt ls rs i) : decapLastIndex ls rs = (i : Int) := by
  obtain ⟨hocc, hafter⟩ := h
  have hi : i < ls.length := occursAt_lt ls rs i hocc
  unfold decapLastIndex
  rcases foldl_last_true (fun k => decapMatch ls k 0 rs false) ls.length with
    ⟨_, hall⟩ | ⟨i', hi', hr, hpi, hafter'⟩
  · have := hall i hi
    rw [(decapMatch_iff ls rs i).mpr hocc] at this
    exact absurd this (by simp)
  · rw [hr]
    rcases Nat.lt_trichotomy i' i with hlt | heq | hgt
    · have := hafter' i hi hlt
      rw [(decapMatch_iff ls rs i).mpr hocc] at this
      exact absurd this (by simp)
    · rw [heq]
    · exact absurd ((decapMatch_iff ls rs i').mp hpi) (hafter i' hi' hgt)

theorem decapLastIndex_none (ls rs : List multiaddr)
    (h : ∀ k, k < ls.length → ¬ OccursAt ls rs k) : decapLastIndex ls rs = -1 := by
  unfold decapLastIndex
  rcases foldl_last_true (fun k => decapMatch ls k 0 rs false) ls.length with
    ⟨hr, _⟩ | ⟨i', hi', _, hpi, _⟩
  · exact hr
  · exact absurd ((decapMatch_iff ls rs i').mp hpi) (h i' hi')

/-! ## C4 -/

/-- C4: for every address `a` and every non-nil suffix whose component sequence occurs in
that of `a`, the right-most occurrence starting at an index `i` greater than zero,
`Decapsulate(a, suffix)` is the join of the components of `a` strictly before `i`. -/
theorem C4_decapsulate_rightmost (E : Env) (a suffix : multiaddr) (i : Nat) (hi : 0 < i)
    (h : RightmostAt (Split E a) (Split E suffix) i) :
    a.Decapsulate E (some suffix) = some (Join ((Split E a).take i)) := by
  unfold multiaddr.Decapsulate
  simp only [decapLastIndex_rightmost _ _ i h]
  have h0 : ((i : Nat) : Int) ≠ 0 := by omega
  have h1 : ¬ ((i : Nat) : Int) < 0 := by omega
  simp [h0, h1]

/-- C4 at `/ip4/10.1.2.3/tcp/1/ip4/10.1.2.3/tcp/1` and the suffix `/tcp/1`, which occurs at
the indices 1 and 3: the result is `/ip4/10.1.2.3/tcp/1/ip4/10.1.2.3`. -/
theorem C4_decapsulate_rightmost_witness :
    0 < 3 ∧ RightmostAt (Split sampleEnv addr_twice) (Split sampleEnv addr_tcp1) 3 ∧
      addr_twice.Decapsulate sampleEnv (some addr_tcp1) =
        some (Join ((Split sampleEnv addr_twice).take 3)) ∧
      Join ((Split sampleEnv addr_twice).take 3) =
        { bytes := [4, 10, 1, 2, 3, 6, 0, 1, 4, 10, 1, 2, 3] } :=
  ⟨by decide, by decide,
    C4_decapsulate_rightmost sampleEnv addr_twice addr_tcp1 3 (by decide) (by decide),
    by decide⟩

/-! ## The codec: a component read from a buffer is read from any extension of it -/

theorem readUvarint_bounds (maxLen : Nat) :
    ∀ (b : List Nat) (i acc v n : Nat), readUvarint maxLen i acc b = .ok (v, n) →
      i < n ∧ n ≤ i + b.length := by
  intro b
  induction b with
  | nil => intro i acc v n h; simp [readUvarint] at h
  | cons y rest ih =>
    intro i acc v n h
    rw [readUvarint] at h
    by_cases h1 : maxLen ≤ i
    · simp [h1] at h
    · by_cases h2 : y < 128
      · by_cases h3 : y = 0 ∧ 0 < i
        · simp [h1, h2, h3] at h
        · simp only [h1, h2, h3, if_false, if_true, Except.ok.injEq, Prod.mk.injEq] at h
          simp only [List.length_cons]
          omega
      · simp only [h1, h2, if_false] at h
        have := ih _ _ _ _ h
        simp only [List.length_cons]
        omega

theorem readUvarint_append (maxLen : Nat) (x : List Nat) :
    ∀ (b : List Nat) (i acc : Nat) (r : Nat × Nat), readUvarint maxLen i acc b = .ok r →
      readUvarint maxLen i acc (b ++ x) = .ok r := by
  intro b
  induction b with
  | nil => intro i acc r h; simp [readUvarint] at h
  | cons y rest ih =>
    intro i acc r h
    rw [readUvarint] at h
    rw [List.cons_append, readUvarint]
    by_cases h1 : maxLen ≤ i
    · simp [h1] at h
    · by_cases h2 : y < 128
      · simp only [h1, h2, if_false, if_true] at h ⊢
        exact h
      · simp only [h1, h2, if_false] at h ⊢
        exact ih _ _ _ h

theorem sizeForAddr_bounds (E : Env) (p : Protocol) (b : List Nat) (skip size : Nat)
    (h : sizeForAddr E p b = .ok (skip, size)) : skip ≤ b.length := by
  unfold sizeForAddr at h
  cases hs : p.Size with
  | fixed bits =>
    simp only [hs, Except.ok.injEq, Prod.mk.injEq] at h
    omega
  | varLen =>
    simp only [hs] at h
    cases hv : ReadVarintCode E b with
    | error e => simp [hv] at h
    | ok r =>
      obtain ⟨v, n⟩ := r
      simp only [hv, Except.ok.injEq, Prod.mk.injEq] at h
      have := readUvarint_bounds _ _ _ _ _ _ hv
      omega

theorem sizeForAddr_append (E : Env) (p : Protocol) (b x : List Nat) (r : Nat × Nat)
    (h : sizeForAddr E p b = .ok r) : sizeForAddr E p (b ++ x) = .ok r := by
  unfold sizeForAddr at h ⊢
  cases hs : p.Size with
  | fixed bits => simpa [hs] using h
  | varLen =>
    simp only [hs] at h ⊢
    cases hv : ReadVarintCode E b with
    | error e => simp [hv] at h
    | ok r' =>
      have hv' : ReadVarintCode E (b ++ x) = .ok r' := readUvarint_append _ x _ _ _ _ hv
      simp only [hv, hv'] at h ⊢
      exact h

theorem readComponent_bounds (E : Env) (b : List Nat) (n : Nat) (c : Component)
    (h : readComponent E b = .ok (n, c)) : 0 < n ∧ n ≤ b.length ∧ c.bytes = b.take n := by
  unfold readComponent at h
  cases hv : ReadVarintCode E b with
  | error e => simp [hv] at h
  | ok r =>
    obtain ⟨code, k⟩ := r
    have hk := readUvarint_bounds _ _ _ _ _ _ hv
    simp only [hv] at h
    by_cases hp : (E.ProtocolWithCode code).Code = 0
    · simp [hp] at h
    · simp only [hp, if_false] at h
      cases hs : sizeForAddr E (E.ProtocolWithCode code) (b.drop k) with
      | error e => simp [hs] at h
      | ok r2 =>
        obtain ⟨skip, size⟩ := r2
        have hskip := sizeForAddr_bounds _ _ _ _ _ hs
        simp only [hs] at h
        by_cases ht : (b.drop (k + skip)).length < size
        · rw [if_pos ht] at h; cases h
        · rw [if_neg ht] at h
          simp only [Except.ok.injEq, Prod.mk.injEq] at h
          obtain ⟨hn, hc⟩ := h
          simp only [List.length_drop] at hskip ht
          refine ⟨by omega, by omega, ?_⟩
          rw [← hc, ← hn]

theorem readComponent_append (E : Env) (b x : List Nat) (n : Nat) (c : Component)
    (h : readComponent E b = .ok (n, c)) : readComponent E (b ++ x) = .ok (n, c) := by
  unfold readComponent at h ⊢
  cases hv : ReadVarintCode E b with
  | error e => simp [hv] at h
  | ok r =>
    obtain ⟨code, k⟩ := r
    have hk := readUvarint_bounds _ _ _ _ _ _ hv
    have hv' : ReadVarintCode E (b ++ x) = .ok (code, k) := readUvarint_append _ x _ _ _ _ hv
    simp only [hv, hv'] at h ⊢
    by_cases hp : (E.ProtocolWithCode code).Code = 0
    · simp [hp] at h
    · simp only [hp, if_false] at h ⊢
      have hd : (b ++ x).drop k = b.drop k ++ x := List.drop_append_of_le_length (by omega)
      cases hs : sizeForAddr E (E.ProtocolWithCode code) (b.drop k) with
      | error e => simp [hs] at h
      | ok r2 =>
        obtain ⟨skip, size⟩ := r2
        have hskip := sizeForAddr_bounds _ _ _ _ _ hs
        have hs' := sizeForAddr_append E _ _ x _ hs
        rw [← hd] at hs'
        simp only [hs, hs'] at h ⊢
        by_cases ht : (b.drop (k + skip)).length < size
        · rw [if_pos ht] at h; cases h
        · rw [if_neg ht] at h
          simp only [List.length_drop] at hskip ht
          have hd2 : (b ++ x).drop (k + skip) = b.drop (k + skip) ++ x :=
            List.drop_append_of_le_length (by omega)
          have ht' : ¬ ((b ++ x).drop (k + skip)).length < size := by
            simp only [List.length_drop, List.length_append]; omega
          rw [if_neg ht']
          simp only [Except.ok.injEq, Prod.mk.injEq] at h ⊢
          obtain ⟨hn, hc⟩ := h
          refine ⟨hn, ?_⟩
          rw [← hc, hd2]
          have e1 : List.take size (b.drop (k + skip) ++ x) = List.take size (b.drop (k + skip)) :=
            List.take_append_of_le_length (by simp only [List.length_drop]; omega)
          have e2 : List.take (k + skip + size) (b ++ x) = List.take (k + skip + size) b :=
            List.take_append_of_le_length (by omega)
          rw [e1, e2]

theorem visits_nil (E : Env) (fuel : Nat) : visits E fuel [] = ([], none) := by
  cases fuel <;> simp [visits]

theorem visits_ok (E : Env) (fuel : Nat) (b : List Nat) (n : Nat) (c : Component)
    (hr : readComponent E b = .ok (n, c)) :
    visits E (fuel + 1) b =
      (c :: (visits E fuel (b.drop n)).1, (visits E fuel (b.drop n)).2) := by
  have hb := readComponent_bounds E b n c hr
  have hlen : 0 < b.length := by omega
  rw [visits]
  simp only [hlen, if_true, hr]

theorem visits_error (E : Env) (fuel : Nat) (b : List Nat) (e : DecodeError)
    (hb : b ≠ []) (hr : readComponent E b = .error e) :
    visits E (fuel + 1) b = ([], some e) := by
  have hlen : 0 < b.length := List.length_pos.mpr hb
  rw [visits]
  simp only [hlen, if_true, hr]

theorem visits_fuel (E : Env) :
    ∀ (fuel1 fuel2 : Nat) (b : List Nat), b.length ≤ fuel1 → b.length ≤ fuel2 →
      visits E fuel1 b = visits E fuel2 b := by
  intro fuel1
  induction fuel1 with
  | zero =>
    intro fuel2 b h1 _
    have hb : b = [] := List.length_eq_zero.mp (Nat.le_zero.mp h1)
    subst hb
    rw [visits_nil, visits_nil]
  | succ fuel1 ih =>
    intro fuel2 b h1 h2
    cases b with
    | nil => rw [visits_nil, visits_nil]
    | cons y rest =>
      cases fuel2 with
      | zero => simp at h2
      | succ fuel2 =>
        cases hr : readComponent E (y :: rest) with
        | error e =>
          rw [visits_error E _ _ e (by simp) hr, visits_error E _ _ e (by simp) hr]
        | ok r =>
          obtain ⟨n, c⟩ := r
          have hb := readComponent_bounds E _ n c hr
          simp only [List.length_cons] at h1 h2 hb
          have hlen : ((y :: rest).drop n).length ≤ rest.length := by
            simp only [List.length_drop, List.length_cons]; omega
          rw [visits_ok E _ _ n c hr, visits_ok E _ _ n c hr,
            ih fuel2 ((y :: rest).drop n) (by omega) (by omega)]

theorem visits_append (E : Env) (x : List Nat) (fuel2 : Nat) (hx : x.length ≤ fuel2) :
    ∀ (fuel : Nat) (b : List Nat), b.length ≤ fuel → (visits E fuel b).2 = none →
      visits E (fuel + fuel2) (b ++ x) =
        ((visits E fuel b).1 ++ (visits E fuel2 x).1, (visits E fuel2 x).2) := by
  intro fuel
  induction fuel with
  | zero =>
    intro b hb _
    have hb' : b = [] := List.length_eq_zero.mp (Nat.le_zero.mp hb)
    subst hb'
    simp [visits]
  | succ fuel ih =>
    intro b hb hv
    cases b with
    | nil =>
      rw [visits_nil]
      simp only [List.nil_append]
      rw [visits_fuel E (fuel + 1 + fuel2) fuel2 x (by omega) hx]
    | cons y rest =>
      have hf : fuel + 1 + fuel2 = (fuel + fuel2) + 1 := by omega
      rw [hf]
      cases hr : readComponent E (y :: rest) with
      | error e =>
        rw [visits_error E _ _ e (by simp) hr] at hv
        simp at hv
      | ok r =>
        obtain ⟨n, c⟩ := r
        have hbd := readComponent_bounds E _ n c hr
        have hr' := readComponent_append E (y :: rest) x n c hr
        rw [visits_ok E _ _ n c hr] at hv ⊢
        rw [visits_ok E _ _ n c hr']
        have hd : ((y :: rest) ++ x).drop n = (y :: rest).drop n ++ x :=
          List.drop_append_of_le_length hbd.2.1
        have hlen : ((y :: rest).drop n).length ≤ fuel := by
          simp only [List.length_drop, List.length_cons] at hb ⊢; omega
        rw [hd, ih _ hlen hv]
        simp

theorem visits_flatten (E : Env) :
    ∀ (fuel : Nat) (b : List Nat), b.length ≤ fuel → (visits E fuel b).2 = none →
      ((visits E fuel b).1.map Component.bytes).flatten = b := by
  intro fuel
  induction fuel with
  | zero =>
    intro b hb _
    have hb' : b = [] := List.length_eq_zero.mp (Nat.le_zero.mp hb)
    subst hb'
    simp [visits]
  | succ fuel ih =>
    intro b hb hv
    cases b with
    | nil => simp [visits]
    | cons y rest =>
      cases hr : readComponent E (y :: rest) with
      | error e =>
        rw [visits_error E _ _ e (by simp) hr] at hv
        simp at hv
      | ok r =>
        obtain ⟨n, c⟩ := r
        have hbd := readComponent_bounds E _ n c hr
        rw [visits_ok E _ _ n c hr] at hv ⊢
        have hlen : ((y :: rest).drop n).length ≤ fuel := by
          simp only [List.length_drop, List.length_cons] at hb ⊢; omega
        simp only [List.map_cons, List.flatten_cons, ih _ hlen hv, hbd.2.2]
        exact List.take_append_drop n (y :: rest)

theorem forEachLoop_fuel {σ : Type} (E : Env)
    (cb : σ → Component → Option DecodeError → σ × Bool) (fuel : Nat) (b : List Nat) (s : σ)
    (h : b.length ≤ fuel) :
    ForEachLoop E cb fuel b s = ForEachLoop E cb b.length b s := by
  rw [forEachLoop_eq_runVisit, forEachLoop_eq_runVisit,
    visits_fuel E fuel b.length b h (Nat.le_refl _)]

theorem components_append (E : Env) (a b : multiaddr) (ha : Valid E a) :
    components E { bytes := a.bytes ++ b.bytes } = components E a ++ components E b := by
  rw [components_eq_visits, components_eq_visits, components_eq_visits]
  simp only [List.length_append]
  rw [visits_append E b.bytes b.bytes.length (Nat.le_refl _) a.bytes.length a.bytes
    (Nat.le_refl _) ha]

theorem split_append (E : Env) (a b : multiaddr) (ha : Valid E a) :
    Split E { bytes := a.bytes ++ b.bytes } = Split E a ++ Split E b := by
  rw [split_eq_components, split_eq_components, split_eq_components, components_append E a b ha,
    List.map_append]

theorem join_split (E : Env) (a : multiaddr) (ha : Valid E a) : Join (Split E a) = a := by
  rw [split_eq_components, components_eq_visits]
  unfold Join
  have h := visits_flatten E a.bytes.length a.bytes (Nat.le_refl _) ha
  simp only [List.map_map]
  have hfun : (multiaddr.bytes ∘ fun c : Component => ({ bytes := c.bytes } : multiaddr)) =
      Component.bytes := by
    funext c; rfl
  rw [hfun, h]

theorem bytes_nil_of_split_nil (E : Env) (a : multiaddr) (ha : Valid E a)
    (h : Split E a = []) : a.bytes = [] := by
  have hj := join_split E a ha
  rw [h] at hj
  rw [← hj]
  rfl

theorem rightmostAt_append (la lb : List multiaddr) (hb : lb ≠ []) :
    RightmostAt (la ++ lb) lb la.length := by
  refine ⟨⟨hb, by simp⟩, ?_⟩
  intro k hk hlt hocc
  have hlen := congrArg List.length hocc.2
  simp only [List.length_take, List.length_drop, List.length_append] at hlen hk
  omega

/-! ## C5 -/

/-- C5 as stated fails: the address without components and `/ip4/10.1.2.3` are valid, the
second does not occur in the first, and decapsulating their encapsulation by `/ip4/10.1.2.3`
gives nil, which is no address with the bytes of the first. -/
theorem C5_roundtrip_counterexample :
    Valid sampleEnv addr_empty ∧ Valid sampleEnv addr_ip4 ∧
      (∀ k, k < (Split sampleEnv addr_empty).length →
        ¬ OccursAt (Split sampleEnv addr_empty) (Split sampleEnv addr_ip4) k) ∧
      (addr_empty.Encapsulate (some addr_ip4)).Decapsulate sampleEnv (some addr_ip4) = none :=
  ⟨by decide, by decide, by decide, by decide⟩

/-- C5, amended: for all valid addresses `a` and `b` such that the component sequence of
`b` does not occur inside `a`, and such that `a` has at least one component or `b` has
none, `Decapsulate(Encapsulate(a, b), b)` is an address whose bytes equal those of `a`. -/
theorem C5_decapsulate_encapsulate (E : Env) (a b : multiaddr) (ha : Valid E a)
    (hb : Valid E b)
    (_hno : ∀ k, k < (Split E a).length → ¬ OccursAt (Split E a) (Split E b) k)
    (hne : Split E a ≠ [] ∨ Split E b = []) :
    ∃ r, (a.Encapsulate (some b)).Decapsulate E (some b) = some r ∧ r.bytes = a.bytes := by
  have henc : a.Encapsulate (some b) = { bytes := a.bytes ++ b.bytes } := rfl
  rw [henc]
  by_cases hbn : Split E b = []
  · have hbb : b.bytes = [] := bytes_nil_of_split_nil E b hb hbn
    refine ⟨{ bytes := a.bytes ++ b.bytes }, ?_, by simp [hbb]⟩
    unfold multiaddr.Decapsulate
    have hnone : decapLastIndex (Split E { bytes := a.bytes ++ b.bytes }) (Split E b) = -1 := by
      apply decapLastIndex_none
      intro k _ hocc
      exact hocc.1 hbn
    simp only [hnone]
    simp
  · have han : Split E a ≠ [] := by
      rcases hne with h | h
      · exact h
      · exact absurd h hbn
    have hpos : 0 < (Split E a).length := List.length_pos.mpr han
    refine ⟨a, ?_, rfl⟩
    unfold multiaddr.Decapsulate
    have hlast : decapLastIndex (Split E { bytes := a.bytes ++ b.bytes }) (Split E b) =
        ((Split E a).length : Int) := by
      rw [split_append E a b ha]
      exact decapLastIndex_rightmost _ _ _ (rightmostAt_append _ _ hbn)
    simp only [hlast]
    have h0 : (((Split E a).length : Nat) : Int) ≠ 0 := by omega
    have h1 : ¬ (((Split E a).length : Nat) : Int) < 0 := by omega
    simp only [h0, h1, if_false, Int.toNat_ofNat]
    rw [split_append E a b ha, List.take_left, join_split E a ha]

/-- C5, amended, at `/ip4/10.1.2.3` and `/tcp/1`. -/
theorem C5_decapsulate_encapsulate_witness :
    Valid sampleEnv addr_ip4 ∧ Valid sampleEnv addr_tcp1 ∧
      (∀ k, k < (Split sampleEnv addr_ip4).length →
        ¬ OccursAt (Split sampleEnv addr_ip4) (Split sampleEnv addr_tcp1) k) ∧
      (Split sampleEnv addr_ip4 ≠ [] ∨ Split sampleEnv addr_tcp1 = []) ∧
      ∃ r, (addr_ip4.Encapsulate (some addr_tcp1)).Decapsulate sampleEnv (some addr_tcp1) =
        some r ∧ r.bytes = addr_ip4.bytes :=
  ⟨by decide, by decide, by decide, by decide,
    C5_decapsulate_encapsulate sampleEnv addr_ip4 addr_tcp1 (by decide) (by decide) (by decide)
      (by decide)⟩

/-! ## C6 -/

/-- C6 as stated fails: the right-most (and only) occurrence of `/ip4/10.1.2.3/tcp/1` in
itself starts at index 0, and `Decapsulate` returns nil, not the address without
components. -/
theorem C6_index_zero_counterexample :
    RightmostAt (Split sampleEnv addr_10_1_2_3) (Split sampleEnv addr_10_1_2_3) 0 ∧
      addr_10_1_2_3.Decapsulate sampleEnv (some addr_10_1_2_3) = none ∧
      addr_10_1_2_3.Decapsulate sampleEnv (some addr_10_1_2_3) ≠ some addr_empty :=
  ⟨by decide, by decide, by decide⟩

/-- C6, amended: for every address `a` and non-nil suffix such that the right-most
occurrence of the component sequence of the suffix in `a` starts at index 0,
`Decapsulate(a, suffix)` returns nil. -/
theorem C6_decapsulate_index_zero_nil (E : Env) (a suffix : multiaddr)
    (h : RightmostAt (Split E a) (Split E suffix) 0) :
    a.Decapsulate E (some suffix) = none := by
  unfold multiaddr.Decapsulate
  simp only [decapLastIndex_rightmost _ _ 0 h]
  simp

/-- C6, amended, at `/ip4/10.1.2.3/tcp/1` and the suffix `/ip4/10.1.2.3`. -/
theorem C6_decapsulate_index_zero_nil_witness :
    RightmostAt (Split sampleEnv addr_10_1_2_3) (Split sampleEnv addr_ip4) 0 ∧
      addr_10_1_2_3.Decapsulate sampleEnv (some addr_ip4) = none :=
  ⟨by decide, C6_decapsulate_index_zero_nil sampleEnv addr_10_1_2_3 addr_ip4 (by decide)⟩

/-! ## C7 -/

/-- C7: for every address `a` and non-nil suffix whose component sequence occurs at no
index of the component sequence of `a`, `Decapsulate(a, suffix)` returns an address whose
bytes equal those of `a`; and for a nil suffix `Decapsulate` returns `a` itself. -/
theorem C7_decapsulate_no_match (E : Env) (a suffix : multiaddr)
    (h : ∀ k, k < (Split E a).length → ¬ OccursAt (Split E a) (Split E suffix) k) :
    (∃ r, a.Decapsulate E (some suffix) = some r ∧ r.bytes = a.bytes) ∧
      a.Decapsulate E none = some a := by
  refine ⟨⟨{ bytes := a.bytes }, ?_, rfl⟩, rfl⟩
  unfold multiaddr.Decapsulate
  simp only [decapLastIndex_none _ _ h]
  simp

/-- C7 at `/ip4/10.1.2.3/tcp/1` and the suffix `/udp/1`. -/
theorem C7_decapsulate_no_match_witness :
    (∀ k, k < (Split sampleEnv addr_10_1_2_3).length →
        ¬ OccursAt (Split sampleEnv addr_10_1_2_3) (Split sampleEnv addr_udp1) k) ∧
      (∃ r, addr_10_1_2_3.Decapsulate sampleEnv (some addr_udp1) = some r ∧
        r.bytes = addr_10_1_2_3.bytes) ∧
      addr_10_1_2_3.Decapsulate sampleEnv none = some addr_10_1_2_3 :=
  ⟨by decide, C7_decapsulate_no_match sampleEnv addr_10_1_2_3 addr_udp1 (by decide)⟩

/-! ## C11 -/

theorem runVisit_addrBlocked_none (E : Env) (rest : List Component) (oe : Option DecodeError)
    (hrest : ∀ c, rest.head? = some c →
      c.protocol.Code ≠ E.P_IP6ZONE ∧ c.protocol.Code ≠ E.P_IP4 ∧ c.protocol.Code ≠ E.P_IP6) :
    ∀ (zs : List Component) (s : List Nat × Bool),
      (∀ z ∈ zs, z.protocol.Code = E.P_IP6ZONE) →
      runVisit (addrBlockedVisit E) (zs ++ rest) oe s = s := by
  intro zs
  induction zs with
  | nil =>
    intro s _
    cases rest with
    | nil => cases oe <;> simp [runVisit, addrBlockedVisit]
    | cons c rest =>
      obtain ⟨hz, h4, h6⟩ := hrest c rfl
      simp [runVisit, addrBlockedVisit, hz, h4, h6]
  | cons z zs ih =>
    intro s hzs
    have hz : z.protocol.Code = E.P_IP6ZONE := hzs z (List.mem_cons_self _ _)
    have hzs' : ∀ z' ∈ zs, z'.protocol.Code = E.P_IP6ZONE :=
      fun z' hz' => hzs z' (List.mem_cons_of_mem _ hz')
    simp [runVisit, addrBlockedVisit, hz, ih s hzs']

theorem scan_of_noIPReached (E : Env) (a : multiaddr) (h : NoIPReached E a) :
    ForEach E a (addrBlockedVisit E) ([], false) = ([], false) := by
  obtain ⟨zs, rest, hcomp, hzs, hrest⟩ := h
  rw [forEach_eq_runVisit, ← components_eq_visits, hcomp]
  exact runVisit_addrBlocked_none E rest _ hrest zs _ hzs

theorem addrBlocked_of_noIPReached (E : Env) (L : NetLib) (fs : Filters) (a : multiaddr)
    (h : NoIPReached E a) :
    fs.AddrBlocked E L a = decide (fs.DefaultAction = ActionDeny) := by
  unfold Filters.AddrBlocked
  rw [scan_of_noIPReached E a h]
  simp

/-- C11: for every state of the filters, whatever its rules, and every address in which
the scan reaches no ip4 or ip6 component (the address is empty, or made of ip6zone
components only, or its first component that is not ip6zone is neither ip4 nor ip6, even
when an IP component comes later), `AddrBlocked` is `DefaultAction == ActionDeny`. -/
theorem C11_addrBlocked_default (E : Env) (L : NetLib) (fs : Filters) (a : multiaddr)
    (h : NoIPReached E a) :
    fs.AddrBlocked E L a = decide (fs.DefaultAction = ActionDeny) :=
  addrBlocked_of_noIPReached E L fs a h

/-- C11 at `/tcp/1/ip4/10.1.2.3` under the rule `10.0.0.0/8` deny and the default accept:
the scan stops at the tcp component and the address is accepted. The empty address and
`/ip6zone/x` reach no IP component either. -/
theorem C11_addrBlocked_default_witness :
    NoIPReached sampleEnv addr_tcp_ip4 ∧
      (NewFilters.AddFilter ip4Lib net10_8 ActionDeny).AddrBlocked sampleEnv ip4Lib
        addr_tcp_ip4 =
        decide ((NewFilters.AddFilter ip4Lib net10_8 ActionDeny).DefaultAction = ActionDeny) ∧
      (NewFilters.AddFilter ip4Lib net10_8 ActionDeny).AddrBlocked sampleEnv ip4Lib
        addr_tcp_ip4 = false ∧
      NoIPReached sampleEnv addr_empty ∧ NoIPReached sampleEnv addr_zone :=
  have h : NoIPReached sampleEnv addr_tcp_ip4 :=
    ⟨[], [⟨⟨6, .fixed 16⟩, [0, 1], [6, 0, 1]⟩, ⟨⟨4, .fixed 32⟩, [10, 1, 2, 3], [4, 10, 1, 2, 3]⟩],
      by decide, by simp, by
        intro c hc
        simp only [List.head?_cons, Option.some.injEq] at hc
        subst hc
        decide⟩
  ⟨h, C11_addrBlocked_default sampleEnv ip4Lib _ addr_tcp_ip4 h, by decide,
    ⟨[], [], by decide, by simp, by simp⟩,
    ⟨[⟨⟨42, .varLen⟩, [120], [42, 1, 120]⟩], [], by decide, by
        intro z hz
        simp only [List.mem_singleton] at hz
        subst hz
        rfl, by simp⟩⟩

/-! ## C15 -/

/-- C15: for every address `a` and non-nil address `b`, the bytes of `Encapsulate(a, b)` are
the bytes of `a` followed by the bytes of `b`, so that their number is the sum of the two
lengths; for a nil `b`, `Encapsulate` returns `a`. -/
theorem C15_encapsulate_bytes (a b : multiaddr) :
    (a.Encapsulate (some b)).bytes = a.bytes ++ b.bytes ∧
      (a.Encapsulate (some b)).bytes.length = a.bytes.length + b.bytes.length ∧
      a.Encapsulate none = a := by
  refine ⟨rfl, ?_, rfl⟩
  simp [multiaddr.Encapsulate, multiaddr.Bytes]

/-! ## C19 -/

/-- C19: for every address `a` and every non-nil suffix without components, no start index
counts as a match, and `Decapsulate(a, suffix)` returns an address whose bytes equal those
of `a`. -/
theorem C19_decapsulate_empty_suffix (E : Env) (a suffix : multiaddr)
    (h : Split E suffix = []) :
    (∀ i, decapMatch (Split E a) i 0 (Split E suffix) false = false) ∧
      ∃ r, a.Decapsulate E (some suffix) = some r ∧ r.bytes = a.bytes := by
  constructor
  · intro i
    rw [h]
    rfl
  · refine ⟨{ bytes := a.bytes }, ?_, rfl⟩
    unfold multiaddr.Decapsulate
    have hnone : decapLastIndex (Split E a) (Split E suffix) = -1 := by
      apply decapLastIndex_none
      intro k _ hocc
      exact hocc.1 h
    simp only [hnone]
    simp

/-- C19 at `/ip4/10.1.2.3/tcp/1` and the empty address as suffix. -/
theorem C19_decapsulate_empty_suffix_witness :
    Split sampleEnv addr_empty = [] ∧
      (∀ i, decapMatch (Split sampleEnv addr_10_1_2_3) i 0 (Split sampleEnv addr_empty) false =
        false) ∧
      ∃ r, addr_10_1_2_3.Decapsulate sampleEnv (some addr_empty) = some r ∧
        r.bytes = addr_10_1_2_3.bytes :=
  ⟨by decide, C19_decapsulate_empty_suffix sampleEnv addr_10_1_2_3 addr_empty (by decide)⟩

/-! ## C20 -/

theorem addFilter_defaultAction (L : NetLib) (fs : Filters) (n : IPNet) (act : Action) :
    (fs.AddFilter L n act).DefaultAction = fs.DefaultAction := by
  unfold Filters.AddFilter
  cases h : fs.find L n with
  | mk idx o => cases o <;> rfl

theorem removeLiteral_defaultAction (L : NetLib) (fs : Filters) (n : IPNet) :
    (fs.RemoveLiteral L n).1.DefaultAction = fs.DefaultAction := by
  unfold Filters.RemoveLiteral
  by_cases h : (fs.find L n).1 ≠ -1
  · simp [h]
  · simp [h]

theorem addFilter_matching (L : NetLib) (fs : Filters) (n : IPNet) (act : Action)
    (ip : List Nat) (hn : L.contains n ip = false)
    (hkey : ∀ e ∈ fs.filters, L.str e.f = L.str n → L.contains e.f ip = L.contains n ip) :
    (fs.AddFilter L n act).filters.filter (fun r => L.contains r.f ip) =
      fs.filters.filter (fun r => L.contains r.f ip) := by
  by_cases hex : ∃ e ∈ fs.filters, L.str e.f = L.str n
  · obtain ⟨pre, e, post, hfl, hpre, he⟩ := exists_first_key L _ _ hex
    have hmem : e ∈ fs.filters := by rw [hfl]; simp
    have hec : L.contains e.f ip = false := (hkey e hmem he).trans hn
    unfold Filters.AddFilter
    rw [find_first L fs n pre e post hfl hpre he]
    simp [hfl, List.filter_append, List.filter_cons, hec]
  · have hno : ∀ e ∈ fs.filters, L.str e.f ≠ L.str n := fun e he hk => hex ⟨e, he, hk⟩
    unfold Filters.AddFilter
    rw [find_none L fs n hno]
    simp [List.filter_append, List.filter_cons, hn]

theorem removeLiteral_matching (L : NetLib) (fs : Filters) (n : IPNet)
    (ip : List Nat) (hn : L.contains n ip = false)
    (hkey : ∀ e ∈ fs.filters, L.str e.f = L.str n → L.contains e.f ip = L.contains n ip) :
    (fs.RemoveLiteral L n).1.filters.filter (fun r => L.contains r.f ip) =
      fs.filters.filter (fun r => L.contains r.f ip) := by
  by_cases hex : ∃ e ∈ fs.filters, L.str e.f = L.str n
  · obtain ⟨pre, e, post, hfl, hpre, he⟩ := exists_first_key L _ _ hex
    have hmem : e ∈ fs.filters := by rw [hfl]; simp
    have hec : L.contains e.f ip = false := (hkey e hmem he).trans hn
    unfold Filters.RemoveLiteral
    rw [find_first L fs n pre e post hfl hpre he]
    have hne : ((pre.length : Nat) : Int) ≠ -1 := by omega
    simp only [hne, ne_eq, not_false_eq_true, if_true, Int.toNat_ofNat]
    rw [hfl]
    simp [List.filter_append, List.filter_cons, hec]
  · have hno : ∀ e ∈ fs.filters, L.str e.f ≠ L.str n := fun e he hk => hex ⟨e, he, hk⟩
    unfold Filters.RemoveLiteral
    rw [find_none L fs n hno]
    simp

/-- C20: a change of the rule for a network `n` leaves the verdict on every address outside
`n` as it was. For every state of the filters, every network `n` and action `act`, and
every address that has no extracted IP or whose extracted IP `n` does not contain,
`AddrBlocked` gives the same answer before and after `AddFilter(n, act)`, and before and
after `RemoveLiteral(n)`. The key of a network determines the network in Go's `net`
package; this is the hypothesis `hkey` on the rules stored under the key of `n`. -/
theorem C20_rule_change_frame (E : Env) (L : NetLib) (fs : Filters) (n : IPNet) (act : Action)
    (a : multiaddr)
    (hkey : ∀ e ∈ fs.filters, L.str e.f = L.str n → ∀ ip, L.contains e.f ip = L.contains n ip)
    (ha : NoIPReached E a ∨ ∃ ip, LeadsWithIP E a ip ∧ L.contains n ip = false) :
    (fs.AddFilter L n act).AddrBlocked E L a = fs.AddrBlocked E L a ∧
      (fs.RemoveLiteral L n).1.AddrBlocked E L a = fs.AddrBlocked E L a := by
  rcases ha with hno | ⟨ip, hip, hn⟩
  · simp only [addrBlocked_of_noIPReached E L _ a hno, addFilter_defaultAction,
      removeLiteral_defaultAction, and_self]
  · simp only [addrBlocked_of_leadsWithIP E L _ a ip hip, lastMatchAction,
      addFilter_matching L fs n act ip hn (fun e he hk => hkey e he hk ip),
      removeLiteral_matching L fs n ip hn (fun e he hk => hkey e he hk ip),
      addFilter_defaultAction, removeLiteral_defaultAction, and_self]

/-- C20 in the state holding `10.0.0.0/8` deny and `10.0.0.0/16` accept, for the network
`10.0.0.0/16` and the address `/ip4/8.8.8.8/tcp/1`. -/
theorem C20_rule_change_frame_witness :
    (∀ e ∈ ((NewFilters.AddFilter ip4Lib net10_8 ActionDeny).AddFilter ip4Lib net10_16
        ActionAccept).filters,
      ip4Lib.str e.f = ip4Lib.str net10_16 →
        ∀ ip, ip4Lib.contains e.f ip = ip4Lib.contains net10_16 ip) ∧
      (NoIPReached sampleEnv addr_8_8_8_8 ∨
        ∃ ip, LeadsWithIP sampleEnv addr_8_8_8_8 ip ∧ ip4Lib.contains net10_16 ip = false) ∧
      (((NewFilters.AddFilter ip4Lib net10_8 ActionDeny).AddFilter ip4Lib net10_16
          ActionAccept).AddFilter ip4Lib net10_16 ActionDeny).AddrBlocked sampleEnv ip4Lib
          addr_8_8_8_8 =
        ((NewFilters.AddFilter ip4Lib net10_8 ActionDeny).AddFilter ip4Lib net10_16
          ActionAccept).AddrBlocked sampleEnv ip4Lib addr_8_8_8_8 ∧
      (((NewFilters.AddFilter ip4Lib net10_8 ActionDeny).AddFilter ip4Lib net10_16
          ActionAccept).RemoveLiteral ip4Lib net10_16).1.AddrBlocked sampleEnv ip4Lib
          addr_8_8_8_8 =
        ((NewFilters.AddFilter ip4Lib net10_8 ActionDeny).AddFilter ip4Lib net10_16
          ActionAccept).AddrBlocked sampleEnv ip4Lib addr_8_8_8_8 :=
  have hkey : ∀ e ∈ ((NewFilters.AddFilter ip4Lib net10_8 ActionDeny).AddFilter ip4Lib net10_16
      ActionAccept).filters,
      ip4Lib.str e.f = ip4Lib.str net10_16 →
        ∀ ip, ip4Lib.contains e.f ip = ip4Lib.contains net10_16 ip := by
    intro e he hk ip
    have hfl : ((NewFilters.AddFilter ip4Lib net10_8 ActionDeny).AddFilter ip4Lib net10_16
        ActionAccept).filters =
        [{ f := net10_8, action := ActionDeny }, { f := net10_16, action := ActionAccept }] := by
      decide
    rw [hfl] at he
    simp only [List.mem_cons, List.mem_singleton, List.not_mem_nil, or_false] at he
    rcases he with h | h
    · subst h
      exact absurd hk (by decide)
    · subst h
      rfl
  have ha : NoIPReached sampleEnv addr_8_8_8_8 ∨
      ∃ ip, LeadsWithIP sampleEnv addr_8_8_8_8 ip ∧ ip4Lib.contains net10_16 ip = false :=
    Or.inr ⟨[8, 8, 8, 8],
      ⟨[], ⟨⟨4, .fixed 32⟩, [8, 8, 8, 8], [4, 8, 8, 8, 8]⟩, [⟨⟨6, .fixed 16⟩, [0, 1], [6, 0, 1]⟩],
        by decide, by simp, Or.inl rfl, rfl⟩, by decide⟩
  ⟨hkey, ha, C20_rule_change_frame sampleEnv ip4Lib _ net10_16 ActionDeny addr_8_8_8_8 hkey ha⟩

/-! ## C14 -/

theorem runVisit_valueForProtocol_found (E : Env) (code : Int) (c : Component)
    (rest : List Component) (oe : Option DecodeError) (hc : (c.protocol.Code : Int) = code) :
    ∀ (pre : List Component) (s : String × Option LookupError),
      (∀ p ∈ pre, (p.protocol.Code : Int) ≠ code) →
      runVisit (valueForProtocolVisit E code) (pre ++ c :: rest) oe s = (E.Value c, none) := by
  intro pre
  induction pre with
  | nil => intro s _; simp [runVisit, valueForProtocolVisit, hc]
  | cons p pre ih =>
    intro s hpre
    have hp : (p.protocol.Code : Int) ≠ code := hpre p (List.mem_cons_self _ _)
    have hpre' : ∀ q ∈ pre, (q.protocol.Code : Int) ≠ code :=
      fun q hq => hpre q (List.mem_cons_of_mem _ hq)
    simp [runVisit, valueForProtocolVisit, hp, ih s hpre']

theorem runVisit_valueForProtocol_none (E : Env) (code : Int) (oe : Option DecodeError) :
    ∀ (cs : List Component) (s : String × Option LookupError),
      (∀ p ∈ cs, (p.protocol.Code : Int) ≠ code) →
      runVisit (valueForProtocolVisit E code) cs oe s =
        match oe with
        | none => s
        | some e => (s.1, some (.decode e)) := by
  intro cs
  induction cs with
  | nil => intro s _; cases oe <;> simp [runVisit, valueForProtocolVisit]
  | cons p cs ih =>
    intro s hcs
    have hp : (p.protocol.Code : Int) ≠ code := hcs p (List.mem_cons_self _ _)
    have hcs' : ∀ q ∈ cs, (q.protocol.Code : Int) ≠ code :=
      fun q hq => hcs q (List.mem_cons_of_mem _ hq)
    simp [runVisit, valueForProtocolVisit, hp, ih s hcs']

/-- C14 as stated fails: the walk over the buffer `04 0a 01` reports a decode error before
any component is seen, and the lookup of tcp returns that decode error, not
`ErrProtocolNotFound`. -/
theorem C14_decode_error_counterexample :
    components sampleEnv addr_cut = [] ∧
      walkError sampleEnv addr_cut = some DecodeError.truncatedValue ∧
      addr_cut.ValueForProtocol sampleEnv 6 =
        ("", some (LookupError.decode DecodeError.truncatedValue)) ∧
      (addr_cut.ValueForProtocol sampleEnv 6).2 ≠ some LookupError.ErrProtocolNotFound :=
  ⟨by decide, by decide, by decide, by decide⟩

/-- C14, amended: `ValueForProtocol(a, code)` returns, with a nil error, the value of the
first component of `a` whose protocol code is `code`; if no component matches and the walk
ends without a decode error it fails with `ErrProtocolNotFound`; if a decode error is
reported before any match it fails with that decode error. -/
theorem C14_valueForProtocol (E : Env) (a : multiaddr) (code : Int) :
    (∀ pre c rest, components E a = pre ++ c :: rest →
      (∀ p ∈ pre, (p.protocol.Code : Int) ≠ code) → (c.protocol.Code : Int) = code →
      a.ValueForProtocol E code = (E.Value c, none)) ∧
    ((∀ p ∈ components E a, (p.protocol.Code : Int) ≠ code) → walkError E a = none →
      a.ValueForProtocol E code = ("", some LookupError.ErrProtocolNotFound)) ∧
    (∀ e, (∀ p ∈ components E a, (p.protocol.Code : Int) ≠ code) → walkError E a = some e →
      a.ValueForProtocol E code = ("", some (LookupError.decode e))) := by
  refine ⟨?_, ?_, ?_⟩
  · intro pre c rest hcomp hpre hc
    unfold multiaddr.ValueForProtocol
    rw [forEach_eq_runVisit, ← components_eq_visits, hcomp]
    exact runVisit_valueForProtocol_found E code c rest _ hc pre _ hpre
  · intro hcs herr
    unfold multiaddr.ValueForProtocol
    unfold walkError at herr
    rw [forEach_eq_runVisit, ← components_eq_visits,
      runVisit_valueForProtocol_none E code _ _ _ hcs, herr]
  · intro e hcs herr
    unfold multiaddr.ValueForProtocol
    unfold walkError at herr
    rw [forEach_eq_runVisit, ← components_eq_visits,
      runVisit_valueForProtocol_none E code _ _ _ hcs, herr]

/-- C14, amended, at `/ip4/1.2.3.4/tcp/1234`: the ip4 value is `1.2.3.4` and the udp lookup
fails with `ErrProtocolNotFound`. -/
theorem C14_valueForProtocol_witness :
    addr_1_2_3_4.ValueForProtocol sampleEnv 4 = ("1.2.3.4", none) ∧
      addr_1_2_3_4.ValueForProtocol sampleEnv 273 =
        ("", some LookupError.ErrProtocolNotFound) :=
  ⟨(C14_valueForProtocol sampleEnv addr_1_2_3_4 4).1 []
      ⟨⟨4, .fixed 32⟩, [1, 2, 3, 4], [4, 1, 2, 3, 4]⟩ [⟨⟨6, .fixed 16⟩, [4, 210], [6, 4, 210]⟩]
      (by decide) (by simp) (by decide),
    (C14_valueForProtocol sampleEnv addr_1_2_3_4 273).2.1 (by decide) (by decide)⟩

/-! ## C16 -/

theorem filterAddrsInner_eq (addr : Option multiaddr) :
    ∀ (filters : List (Option multiaddr → Bool)) (calls : Nat),
      filterAddrsInner addr filters calls =
        (filters.all (fun f => f addr),
          calls + if filters.all (fun f => f addr) then filters.length
            else (filters.takeWhile (fun f => f addr)).length + 1) := by
  intro filters
  induction filters with
  | nil => intro calls; simp [filterAddrsInner]
  | cons f rest ih =>
    intro calls
    rw [filterAddrsInner]
    by_cases hf : f addr = true
    · simp only [hf, Bool.not_true, Bool.false_eq_true, if_false, ih, List.all_cons,
        Bool.true_and, List.takeWhile_cons, if_true, List.length_cons]
      by_cases hall : (rest.all fun f => f addr) = true
      · rw [if_pos hall, if_pos hall, Nat.add_assoc, Nat.add_comm 1]
      · rw [if_neg hall, if_neg hall, Nat.add_assoc, Nat.add_comm 1]
    · simp [hf]

theorem filterAddrs_foldl (filters : List (Option multiaddr → Bool)) :
    ∀ (a b : List (Option multiaddr)),
      a.foldl (fun b addr => if (filterAddrsInner addr filters 0).1 then b ++ [addr] else b) b =
        b ++ a.filter (fun addr => filters.all (fun f => f addr)) := by
  intro a
  induction a with
  | nil => intro b; simp
  | cons x rest ih =>
    intro b
    rw [List.foldl_cons, ih, filterAddrsInner_eq, List.filter_cons]
    by_cases hx : (filters.all fun f => f x) = true
    · simp [hx]
    · simp [hx]

/-- C16: `FilterAddrs` returns the addresses for which every filter answers true, in input
order and as often as they occur in the input; without filters it returns all addresses;
and for each address the filters are called in order up to the first that answers false,
those after it are not called. -/
theorem C16_filterAddrs (a : List (Option multiaddr)) (filters : List (Option multiaddr → Bool)) :
    FilterAddrs a filters = a.filter (fun addr => filters.all (fun f => f addr)) ∧
      FilterAddrs a [] = a ∧
      ∀ addr, (filterAddrsInner addr filters 0).2 =
        if filters.all (fun f => f addr) then filters.length
        else (filters.takeWhile (fun f => f addr)).length + 1 := by
  refine ⟨?_, ?_, ?_⟩
  · unfold FilterAddrs
    rw [filterAddrs_foldl]
    simp
  · unfold FilterAddrs
    rw [filterAddrs_foldl]
    simp
  · intro addr
    rw [filterAddrsInner_eq]
    simp

/-! ## C18 -/

theorem unmarshalJSON_of_decode_error (P : Parsers) (m : multiaddr) (data v : String)
    (e : DecodeError) (hj : P.jsonUnmarshal data = .ok v) (hs : P.stringToBytes v = .error e) :
    m.UnmarshalJSON P data = Outcome.panic := by
  simp [multiaddr.UnmarshalJSON, NewMultiaddr, assignAsserted, hj, hs]

theorem unmarshalText_of_decode_error (P : Parsers) (m : multiaddr) (v : String)
    (e : DecodeError) (hs : P.stringToBytes v = .error e) :
    m.UnmarshalText P v = Outcome.returned m (some (UnmarshalError.decode e)) := by
  simp [multiaddr.UnmarshalText, NewMultiaddr, hs]

theorem unmarshalBinary_of_decode_error (E : Env) (m : multiaddr) (b : List Nat)
    (e : DecodeError) (hv : validateBytes E b = some e) :
    m.UnmarshalBinary E b = Outcome.returned m (some (UnmarshalError.decode e)) := by
  simp [multiaddr.UnmarshalBinary, NewMultiaddrBytes, hv]

/-- C18: the JSON text `"/bogus"` is a well-formed string literal and `NewMultiaddr` fails on
its content with a decode error. `UnmarshalText` on that content returns the error and
leaves the receiver as it was, and so does `UnmarshalBinary` on a buffer that does not
validate; `UnmarshalJSON` panics, because it asserts the type of the nil result of
`NewMultiaddr` before it looks at the error. -/
theorem C18_unmarshalJSON_panics :
    sampleParsers.jsonUnmarshal jsonBogus = .ok "/bogus" ∧
      NewMultiaddr sampleParsers "/bogus" = (none, some DecodeError.unknownProtocol) ∧
      addr_tcp1.UnmarshalJSON sampleParsers jsonBogus = Outcome.panic ∧
      addr_tcp1.UnmarshalText sampleParsers "/bogus" =
        Outcome.returned addr_tcp1 (some (UnmarshalError.decode DecodeError.unknownProtocol)) ∧
      addr_tcp1.UnmarshalBinary sampleEnv [4, 10, 1] =
        Outcome.returned addr_tcp1 (some (UnmarshalError.decode DecodeError.truncatedValue)) :=
  ⟨rfl, by decide,
    unmarshalJSON_of_decode_error sampleParsers addr_tcp1 jsonBogus "/bogus"
      DecodeError.unknownProtocol rfl rfl,
    unmarshalText_of_decode_error sampleParsers addr_tcp1 "/bogus"
      DecodeError.unknownProtocol rfl,
    unmarshalBinary_of_decode_error sampleEnv addr_tcp1 [4, 10, 1]
      DecodeError.truncatedValue (by decide)⟩

/-! ## `Unique` and `Contains` -/

theorem equal_iff (a b : multiaddr) : a.Equal (some b) = true ↔ a = b := by
  simp [multiaddr.Equal, multiaddr_eq_iff]

theorem contains_iff (l : List multiaddr) (x : multiaddr) : Contains l x = true ↔ x ∈ l := by
  induction l with
  | nil => simp [Contains]
  | cons a rest ih =>
    rw [Contains]
    by_cases h : x.Equal (some a) = true
    · have hxa : x = a := (equal_iff x a).mp h
      rw [if_pos h]
      simp [hxa]
    · have hne : x ≠ a := fun hxa => h ((equal_iff x a).mpr hxa)
      rw [if_neg h]
      simp [ih, hne]

theorem uniqueCmp_le_iff (a b : multiaddr) : uniqueCmp a b ≤ 0 ↔ a.bytes ≤ b.bytes := by
  unfold uniqueCmp bytesCompare multiaddr.Bytes
  by_cases h1 : a.bytes < b.bytes
  · simp [h1, le_of_lt h1]
  · by_cases h2 : a.bytes = b.bytes
    · simp [h2]
    · have h3 : ¬ a.bytes ≤ b.bytes := fun hle => h1 (lt_of_le_of_ne hle h2)
      simp [h1, h2, h3]

theorem sortFunc_perm (l : List multiaddr) : (SortFunc uniqueCmp l).Perm l :=
  List.perm_insertionSort _ l

theorem sortFunc_sorted (l : List multiaddr) :
    (SortFunc uniqueCmp l).Pairwise (fun a b => a.bytes ≤ b.bytes) := by
  haveI : IsTotal multiaddr (fun a b => uniqueCmp a b ≤ 0) :=
    ⟨fun a b => by
      simp only [uniqueCmp_le_iff]
      exact le_total a.bytes b.bytes⟩
  haveI : IsTrans multiaddr (fun a b => uniqueCmp a b ≤ 0) :=
    ⟨fun a b c hab hbc => by
      simp only [uniqueCmp_le_iff] at hab hbc ⊢
      exact le_trans hab hbc⟩
  have h := List.sorted_insertionSort (fun a b : multiaddr => uniqueCmp a b ≤ 0) l
  unfold SortFunc
  exact List.Pairwise.imp (fun {a b} hab => (uniqueCmp_le_iff a b).mp hab) h

theorem read_kept_ge (kept s : List multiaddr) (j : Nat) (h : kept.length ≤ j) :
    (kept ++ s.drop kept.length)[j]? = s[j]? := by
  rw [List.getElem?_append_right h, List.getElem?_drop]
  congr 1
  omega

theorem read_kept_last (kept rest : List multiaddr) (p : multiaddr)
    (h : kept.getLast? = some p) : (kept ++ rest)[kept.length - 1]? = some p := by
  have hne : kept ≠ [] := by
    intro hk; rw [hk] at h; simp at h
  have hlen : kept.length - 1 < kept.length := by
    have := List.length_pos.mpr hne; omega
  rw [List.getElem?_append_left hlen, ← h, List.getLast?_eq_getElem?]

theorem write_kept (kept s : List multiaddr) (c : multiaddr) (h : kept.length < s.length) :
    (kept ++ s.drop kept.length).set kept.length c =
      (kept ++ [c]) ++ s.drop (kept ++ [c]).length := by
  rw [List.set_append]
  simp only [Nat.lt_irrefl, if_false, Nat.sub_self, List.length_append, List.length_singleton,
    List.append_assoc, List.singleton_append]
  congr 1
  rw [List.drop_eq_getElem_cons h, List.set_cons_zero]

theorem uniqueLoop_inv (s : List multiaddr)
    (hs : s.Pairwise (fun a b => a.bytes ≤ b.bytes)) :
    ∀ (todo front : List multiaddr) (p : multiaddr) (kept : List multiaddr),
      s = front ++ p :: todo → kept.getLast? = some p → kept.length ≤ front.length + 1 →
      kept.Pairwise (fun a b => a.bytes < b.bytes) → (∀ x, x ∈ kept ↔ x ∈ front ++ [p]) →
      ∃ kept', uniqueLoop todo.length (front.length + 1) (kept ++ s.drop kept.length)
            kept.length = (kept' ++ s.drop kept'.length, kept'.length) ∧
          kept'.Pairwise (fun a b => a.bytes < b.bytes) ∧ ∀ x, x ∈ kept' ↔ x ∈ s := by
  intro todo
  induction todo with
  | nil =>
    intro front p kept hsplit _ _ hpw hmem
    refine ⟨kept, rfl, hpw, ?_⟩
    intro x
    rw [hmem x, hsplit]
  | cons c todo ih =>
    intro front p kept hsplit hlast hlen hpw hmem
    have hslen : s.length = front.length + 1 + (todo.length + 1) := by
      rw [hsplit]; simp only [List.length_append, List.length_cons]; omega
    have hsp : s[front.length]? = some p := by
      rw [hsplit, List.getElem?_append_right (Nat.le_refl _)]; simp
    have hsc : s[front.length + 1]? = some c := by
      rw [hsplit, List.getElem?_append_right (Nat.le_succ _)]; simp
    have hrp : (kept ++ s.drop kept.length)[front.length + 1 - 1]? = some p := by
      rw [Nat.add_sub_cancel]
      by_cases hk : kept.length ≤ front.length
      · rw [read_kept_ge kept s _ hk, hsp]
      · have hk' : front.length = kept.length - 1 := by omega
        rw [hk']
        exact read_kept_last kept _ p hlast
    have hrc : (kept ++ s.drop kept.length)[front.length + 1]? = some c := by
      rw [read_kept_ge kept s _ hlen, hsc]
    have hsplit' : s = (front ++ [p]) ++ c :: todo := by
      rw [hsplit]; simp
    have hfl : (front ++ [p]).length = front.length + 1 := by simp
    have hpc : p.bytes ≤ c.bytes := by
      rw [hsplit, List.pairwise_append] at hs
      exact (List.pairwise_cons.mp hs.2.1).1 c (List.mem_cons_self _ _)
    have hfront : ∀ x ∈ front, x.bytes ≤ p.bytes := by
      intro x hx
      rw [hsplit, List.pairwise_append] at hs
      exact hs.2.2 x hx p (List.mem_cons_self _ _)
    rw [List.length_cons, uniqueLoop, hrp, hrc]
    by_cases heq : p.Equal (some c) = true
    · have hpeq : p = c := (equal_iff p c).mp heq
      simp only [heq, Bool.not_true, Bool.false_eq_true, if_false]
      have := ih (front ++ [p]) c kept hsplit' (by rw [hlast, hpeq]) (by rw [hfl]; omega) hpw
        (by
          intro x
          rw [hmem x]
          simp only [List.mem_append, List.mem_singleton]
          constructor
          · intro h; exact Or.inl h
          · rintro (h | h)
            · exact h
            · exact Or.inr (h.trans hpeq.symm))
      rw [hfl] at this
      exact this
    · have hne : p.bytes ≠ c.bytes := by
        intro hb
        exact heq ((equal_iff p c).mpr ((multiaddr_eq_iff p c).mp hb))
      have hlt : p.bytes < c.bytes := lt_of_le_of_ne hpc hne
      simp only [heq, Bool.not_false, if_true]
      rw [write_kept kept s c (by omega)]
      have hkl : (kept ++ [c]).length = kept.length + 1 := by simp
      have := ih (front ++ [p]) c (kept ++ [c]) hsplit' (by simp) (by rw [hfl, hkl]; omega)
        (by
          rw [List.pairwise_append]
          refine ⟨hpw, List.pairwise_singleton _ _, ?_⟩
          intro x hx y hy
          simp only [List.mem_singleton] at hy
          subst hy
          have hx' := (hmem x).mp hx
          simp only [List.mem_append, List.mem_singleton] at hx'
          rcases hx' with h | h
          · exact lt_of_le_of_lt (hfront x h) hlt
          · rw [h]; exact hlt)
        (by
          intro x
          simp only [List.mem_append, List.mem_singleton]
          rw [hmem x]
          simp only [List.mem_append, List.mem_singleton])
      rw [hfl, hkl] at this
      rw [hkl]
      exact this

theorem unique_spec (l : List multiaddr) :
    (Unique l).Pairwise (fun a b => a.bytes < b.bytes) ∧ ∀ x, x ∈ Unique l ↔ x ∈ l := by
  unfold Unique
  by_cases hl : l.length = 0
  · have : l = [] := List.length_eq_zero.mp hl
    subst this
    simp
  · rw [if_neg hl]
    have hperm := sortFunc_perm l
    have hsorted := sortFunc_sorted l
    cases hs : SortFunc uniqueCmp l with
    | nil =>
      rw [hs] at hperm
      have := hperm.length_eq
      simp at this
      omega
    | cons p todo =>
      rw [hs] at hsorted hperm
      obtain ⟨kept', hloop, hpw, hmem⟩ :=
        uniqueLoop_inv (p :: todo) hsorted todo [] p [p] rfl rfl (by simp)
          (List.pairwise_singleton _ _) (by simp)
      simp only [List.length_nil, Nat.zero_add, List.length_singleton, List.singleton_append,
        List.drop_succ_cons, List.drop_zero] at hloop
      simp only [List.length_cons, Nat.add_sub_cancel, hloop, List.take_left']
      refine ⟨hpw, ?_⟩
      intro x
      rw [hmem x]
      exact hperm.mem_iff

/-! ## C12 -/

/-- C12: for every list of non-nil addresses the output of `Unique` is strictly increasing
in the lexicographic order of the byte buffers, hence sorted and without two elements that
are byte-equal; `Unique([addr, addr])` has length 1 and `Unique([])` is empty. -/
theorem C12_unique_strictly_increasing (l : List multiaddr) (addr : multiaddr) :
    (Unique l).Pairwise (fun a b => a.bytes < b.bytes) ∧
      (Unique [addr, addr]).length = 1 ∧ Unique [] = [] := by
  refine ⟨(unique_spec l).1, ?_, rfl⟩
  simp [Unique, SortFunc, uniqueLoop, multiaddr.Equal, uniqueCmp, bytesCompare]

/-! ## C13 -/

/-- C13: `Unique` keeps one representative of every address and adds none. For every list
`l` of non-nil addresses and every address `x`, `Contains(Unique(l), x)` holds exactly when
`Contains(l, x)` does, and the length of `Unique(l)` is the number of distinct byte buffers
in `l`. -/
theorem C13_unique_contains (l : List multiaddr) (x : multiaddr) :
    Contains (Unique l) x = Contains l x ∧
      (Unique l).length = (l.map multiaddr.bytes).dedup.length := by
  obtain ⟨hpw, hmem⟩ := unique_spec l
  constructor
  · rw [Bool.eq_iff_iff, contains_iff, contains_iff]
    exact hmem x
  · have hnd : ((Unique l).map multiaddr.bytes).Nodup := by
      unfold List.Nodup
      rw [List.pairwise_map]
      exact List.Pairwise.imp (fun {a b} hab => ne_of_lt hab) hpw
    have hperm : ((Unique l).map multiaddr.bytes).Perm (l.map multiaddr.bytes).dedup := by
      rw [List.perm_ext_iff_of_nodup hnd (List.nodup_dedup _)]
      intro b
      rw [List.mem_dedup, List.mem_map, List.mem_map]
      constructor
      · rintro ⟨a, ha, hab⟩; exact ⟨a, (hmem a).mp ha, hab⟩
      · rintro ⟨a, ha, hab⟩; exact ⟨a, (hmem a).mpr ha, hab⟩
    have := hperm.length_eq
    rw [List.length_map] at this
    exact this

/-! ## C17 -/

theorem addFilter_writesExclusive (L : NetLib) (fs : Filters) (n : IPNet) :
    WritesExclusive (fs.AddFilterEvents L n) := by
  unfold Filters.AddFilterEvents
  cases h : fs.find L n with
  | mk idx o =>
    cases o with
    | none => dsimp only; decide
    | some f => dsimp only; decide

theorem removeLiteral_writesExclusive (L : NetLib) (fs : Filters) (n : IPNet) :
    WritesExclusive (fs.RemoveLiteralEvents L n) := by
  unfold Filters.RemoveLiteralEvents
  by_cases h : (fs.find L n).1 ≠ -1
  · rw [if_pos h]; decide
  · rw [if_neg h]; decide

theorem addrBlocked_readsShared (E : Env) (a : multiaddr) :
    ReadsShared (Filters.AddrBlockedEvents E a) := by
  unfold Filters.AddrBlockedEvents
  by_cases h : (!(ForEach E a (addrBlockedVisit E) ([], false)).2) = true
  · rw [if_pos h]; decide
  · rw [if_neg h]; decide

theorem actionForFilter_unlocked (L : NetLib) (fs : Filters) (n : IPNet) :
    (Event.readFilters, Mu.unlocked) ∈ accesses .unlocked (fs.ActionForFilterEvents L n) ∧
      ¬ ReadsShared (fs.ActionForFilterEvents L n) := by
  unfold Filters.ActionForFilterEvents
  cases h : fs.find L n with
  | mk idx o =>
    cases o with
    | none => dsimp only; decide
    | some f => dsimp only; decide

/-- C17: `ActionForFilter` reads the rule list with the lock not held. In the state with the
one rule `10.0.0.0/8` deny, the call for `10.0.0.0/8` runs the loop of `find` and reads the
action of the entry found, both without `RLock`; and so it is for every state and network.
The other four methods keep the discipline: `AddrBlocked` and `FiltersForAction` read in
shared mode, `AddFilter` and `RemoveLiteral` read and write with the lock held exclusively,
and each of them leaves the lock free on every return path. -/
theorem C17_actionForFilter_reads_without_lock :
    accesses .unlocked
        ((NewFilters.AddFilter ip4Lib net10_8 ActionDeny).ActionForFilterEvents ip4Lib net10_8) =
        [(Event.readFilters, Mu.unlocked), (Event.readFilters, Mu.unlocked)] ∧
      ¬ ReadsShared
        ((NewFilters.AddFilter ip4Lib net10_8 ActionDeny).ActionForFilterEvents ip4Lib net10_8) ∧
      (∀ (L : NetLib) (fs : Filters) (n : IPNet), ¬ ReadsShared (fs.ActionForFilterEvents L n)) ∧
      (∀ (E : Env) (a : multiaddr), ReadsShared (Filters.AddrBlockedEvents E a)) ∧
      ReadsShared Filters.FiltersForActionEvents ∧
      (∀ (L : NetLib) (fs : Filters) (n : IPNet), WritesExclusive (fs.AddFilterEvents L n)) ∧
      (∀ (L : NetLib) (fs : Filters) (n : IPNet), WritesExclusive (fs.RemoveLiteralEvents L n)) :=
  ⟨by decide, by decide, fun L fs n => (actionForFilter_unlocked L fs n).2,
    addrBlocked_readsShared, by decide, addFilter_writesExclusive,
    removeLiteral_writesExclusive⟩

end Multiaddr
